import Mathlib

/-!
# A shallow embedding of `shell.c`

The development models the history ring buffer (`add_to_history`,
`print_history`), the in-place tokenizer (`tokenize_command`), the line reader
with history expansion (`read_command`) and the dispatching loop of `main` of
`src/shell.c`, and proves properties of them.

Modelling conventions.

* A byte is a `Char`; `NUL` is the terminator byte.
* A `char *` buffer is a `List Char` holding the bytes of the memory region,
  with an implicit terminator at the end of the list.  The C string stored in
  a buffer is the part before the first `NUL` (`strcpy`, `strlen`).
* A pointer into the line buffer is the offset `Nat`; the array `tokens[]` is a
  `List (Option Nat)` in which `none` is the null pointer.
* `history_count` is a natural number: the C `int` is never decremented and the
  model assumes fewer than `2^31` recorded lines.
* Standard output and standard error are the lists of bytes written to them.
* The loop of `main` is modelled for one process. The results of its system calls
  (`getcwd`, `chdir`, `fork`, `execvp`) and of the `read` calls still to come are
  inputs; what the process does to its environment is recorded in a log of events.
  The signal handler runs asynchronously and is not part of the loop.
-/

namespace Shell

/-! ## Constants -/

/-- Size of the line buffer and of a history slot: `#define COMMAND_LENGTH 1024`. -/
def COMMAND_LENGTH : Nat := 1024

/-- Size of the token array: `#define NUM_TOKENS (COMMAND_LENGTH / 2 + 1)`. -/
def NUM_TOKENS : Nat := COMMAND_LENGTH / 2 + 1

/-- Number of history slots: `#define HISTORY_DEPTH 10`. -/
def HISTORY_DEPTH : Nat := 10

/-- The terminator byte of C strings. -/
def NUL : Char := Char.ofNat 0

/-- Largest value of a C `int`. -/
def INT_MAX : Int := 2147483647

/-- Smallest value of a C `int`. -/
def INT_MIN : Int := -2147483648

/-! ## C library functions used by the program -/

/-- The C string held in a buffer: the bytes before the first terminator. This is
what `strcpy` stores at its destination. -/
def strcpy (src : List Char) : List Char :=
  src.takeWhile (fun c => c != NUL)

/-- Length of the C string held in a buffer. -/
def strlen (s : List Char) : Nat :=
  (strcpy s).length

/-- Length of the C string held in a buffer, capped at `maxlen`. -/
def strnlen (s : List Char) (maxlen : Nat) : Nat :=
  min (strlen s) maxlen

/-- The C string that starts at offset `p` of the buffer `buff`. -/
def tokstr (buff : List Char) (p : Nat) : List Char :=
  strcpy (buff.drop p)

/-- Whitespace in the sense of `isspace` in the C locale. -/
def isspace (c : Char) : Bool :=
  c == ' ' || c == '\t' || c == '\n' || c == Char.ofNat 11 || c == Char.ofNat 12 || c == '\r'

/-- Decimal digits in the sense of `isdigit`. -/
def isdigit (c : Char) : Bool :=
  '0'.toNat ≤ c.toNat && c.toNat ≤ '9'.toNat

/-- Value of a run of decimal digits, most significant first. -/
def digits_value (ds : List Char) : Nat :=
  ds.foldl (fun acc c => 10 * acc + (c.toNat - '0'.toNat)) 0

/-- The library function `atoi`: optional leading whitespace, an optional sign, then
the longest run of decimal digits (value `0` when there is none); whatever follows
is ignored. The result is `none` when the value does not fit in an `int`, where the
C standard leaves the behaviour undefined. -/
def atoi (s : List Char) : Option Int :=
  let s := s.dropWhile isspace
  let negative : Bool := s.head? == some '-'
  let s := if s.head? = some '-' ∨ s.head? = some '+' then s.tail else s
  let v : Int := (digits_value (s.takeWhile isdigit) : Nat)
  let n : Int := if negative then -v else v
  if INT_MIN ≤ n ∧ n ≤ INT_MAX then some n else none

/-- Output of `snprintf(history_count_str, COMMAND_LENGTH, "%d\t", n)` for a
non-negative `n`: the decimal digits of `n` followed by a tab. -/
def snprintf_d_tab (n : Nat) : List Char :=
  Nat.toDigits 10 n ++ ['\t']

/-- Output of `perror(s)`: the message, a colon, the text of `errno`, a newline. -/
def perror (s : List Char) (strerror : List Char) : List Char :=
  s ++ [':', ' '] ++ strerror ++ ['\n']

/-! ## The history store -/

/-- The globals `history` and `history_count`. Each slot holds the C string stored
in that row of `char history[HISTORY_DEPTH][COMMAND_LENGTH]`. -/
structure HistoryStore where
  /-- The rows of the array `history`. -/
  history : List (List Char)
  /-- The global counter `history_count`. -/
  history_count : Nat
  /-- The array has exactly `HISTORY_DEPTH` rows. -/
  size_eq : history.length = HISTORY_DEPTH
deriving DecidableEq

/-- The store at program start: a zero-initialised array and `history_count = 0`. -/
def empty_history : HistoryStore :=
  { history := List.replicate HISTORY_DEPTH []
    history_count := 0
    size_eq := List.length_replicate _ _ }

/-- The function `add_to_history`: copy the line into slot
`history_count % HISTORY_DEPTH`, then increment `history_count`. -/
def add_to_history (st : HistoryStore) (buff : List Char) : HistoryStore :=
  { history := st.history.set (st.history_count % HISTORY_DEPTH) (strcpy buff)
    history_count := st.history_count + 1
    size_eq := by rw [List.length_set]; exact st.size_eq }

/-- One iteration of either loop of `print_history`: the three `write` calls for
the number `i + 1` and the row `slot` of `history`. -/
def print_history_row (st : HistoryStore) (out : List Char) (i slot : Nat) : List Char :=
  out ++ snprintf_d_tab (i + 1) ++ strcpy (st.history.getD slot []) ++ ['\n']

/-- The function `print_history`: the bytes it writes to standard output. -/
def print_history (st : HistoryStore) : List Char :=
  if st.history_count ≤ HISTORY_DEPTH then
    (List.range HISTORY_DEPTH).foldl
      (fun out i => print_history_row st out i i) []
  else
    (List.range' (st.history_count - HISTORY_DEPTH) HISTORY_DEPTH).foldl
      (fun out i => print_history_row st out i (i % HISTORY_DEPTH)) []

/-- The function `handle_SIGINT`: a newline, then the history listing. -/
def handle_SIGINT (st : HistoryStore) : List Char :=
  ['\n'] ++ print_history st

/-! ## The tokenizer -/

/-- The local variables of `tokenize_command` together with the two arrays it
writes. -/
structure TokenizeState where
  /-- The line buffer. -/
  buff : List Char
  /-- The token array. -/
  tokens : List (Option Nat)
  /-- The local `token_count`. -/
  token_count : Nat
  /-- The local `in_token`. -/
  in_token : Bool
deriving DecidableEq

/-- The body of the `for` loop of `tokenize_command` at index `i`. -/
def tokenize_step (s : TokenizeState) (i : Nat) : TokenizeState :=
  let c := s.buff.getD i NUL
  if c = ' ' ∨ c = '\t' ∨ c = '\n' then
    { s with buff := s.buff.set i NUL, in_token := false }
  else if !s.in_token then
    { s with tokens := s.tokens.set s.token_count (some i)
             token_count := s.token_count + 1
             in_token := true }
  else s

/-- What `tokenize_command` leaves behind: the modified buffer, the token array and
the returned count. -/
structure Tokenized where
  /-- The line buffer after the call. -/
  buff : List Char
  /-- The token array after the call. -/
  tokens : List (Option Nat)
  /-- The returned number of tokens. -/
  token_count : Nat
deriving DecidableEq

/-- The function `tokenize_command`. -/
def tokenize_command (buff : List Char) (tokens : List (Option Nat)) : Tokenized :=
  let num_chars := strnlen buff COMMAND_LENGTH
  let s := (List.range num_chars).foldl tokenize_step
    { buff := buff, tokens := tokens, token_count := 0, in_token := false }
  { buff := s.buff, tokens := s.tokens.set s.token_count none, token_count := s.token_count }

/-- The string `tokens[k]` points to (the empty string for a null pointer). -/
def token_at (buff : List Char) (tokens : List (Option Nat)) (k : Nat) : List Char :=
  match tokens.getD k none with
  | some p => tokstr buff p
  | none => []

/-- The null-terminated argument vector a token array denotes: the strings of the
entries before the first null pointer. -/
def argv (buff : List Char) : List (Option Nat) → List (List Char)
  | some p :: rest => tokstr buff p :: argv buff rest
  | _ => []

/-! ## The line reader -/

/-- What the call `read(STDIN_FILENO, buff, COMMAND_LENGTH-1)` did. -/
inductive ReadResult where
  /-- The call stored `bytes` and returned their number. -/
  | data (bytes : List Char)
  /-- The call returned `-1` with `errno == EINTR`. -/
  | eintr
  /-- The call returned `-1` with another `errno`, whose text is `strerror`. -/
  | failed (strerror : List Char)
deriving DecidableEq

/-- The state `read_command` hands back to its caller. -/
structure CommandResult where
  /-- The line buffer `buff`. -/
  buff : List Char
  /-- The token array `tokens`. -/
  tokens : List (Option Nat)
  /-- The flag `*in_background`. -/
  in_background : Bool
  /-- Bytes written to standard output. -/
  stdout : List Char
  /-- Bytes written to standard error. -/
  stderr : List Char
  /-- The history store after the call. -/
  st : HistoryStore
deriving DecidableEq

/-- How a call of `read_command` ends. -/
inductive Outcome where
  /-- The function returned. -/
  | returned (r : CommandResult)
  /-- The process terminated through `exit(status)` after writing `stderr`. -/
  | exited (status : Int) (stderr : List Char)
  /-- The call ran into behaviour the C standard leaves undefined. -/
  | undefined
deriving DecidableEq

/-- The message of the `!!` error path. -/
def no_previous_command : List Char :=
  "Error: No previous command found\n".toList

/-- The message of the `!n` error path. -/
def invalid_command_number : List Char :=
  "Error: Invalid command number\n".toList

/-- The statement `if (buff[strlen(buff) - 1] == '\n') buff[strlen(buff) - 1] = '\0';` of
`read_command`, for a buffer that holds a non-empty string. -/
def strip_newline (buff : List Char) : List Char :=
  if buff.getD (strlen buff - 1) NUL = '\n' then buff.set (strlen buff - 1) NUL else buff

/-- The block of `read_command` that starts at `if (tokens[0][0] == '!')`: either an
early return, or the tokenization, the saved line `copy_buff` and the echoed bytes
with which the function goes on. -/
def expand_history (st : HistoryStore) (t : Tokenized) (copy_buff : List Char) :
    Except Outcome (Tokenized × List Char × List Char) :=
  let first := token_at t.buff t.tokens 0
  if first.head? = some '!' then
    if first = ['!', '!'] then
      if st.history_count = 0 then
        .error (.returned
          { buff := t.buff, tokens := t.tokens.set 0 none, in_background := false
            stdout := [], stderr := no_previous_command, st := st })
      else
        let buff := strcpy (st.history.getD ((st.history_count - 1) % HISTORY_DEPTH) [])
        let copy_buff := strcpy buff
        let t := tokenize_command buff t.tokens
        .ok (t, copy_buff, copy_buff ++ ['\n'])
    else
      match atoi first.tail with
      | none => .error .undefined
      | some num =>
        if num ≤ 0 ∨ num > (st.history_count : Int)
            ∨ num ≤ (st.history_count : Int) - (HISTORY_DEPTH : Int) then
          .error (.returned
            { buff := t.buff, tokens := t.tokens.set 0 none, in_background := false
              stdout := [], stderr := invalid_command_number, st := st })
        else
          let buff := strcpy (st.history.getD ((num - 1).toNat % HISTORY_DEPTH) [])
          let copy_buff := strcpy buff
          let t := tokenize_command buff t.tokens
          .ok (t, copy_buff, copy_buff ++ ['\n'])
  else
    .ok (t, copy_buff, [])

/-- The end of `read_command`, from `// Extract if running in background:` on: a final
`&` token sets the flag and is replaced by a null pointer, then the saved line is
appended to the history. `out` is what the function wrote to standard output so far. -/
def record_command (st : HistoryStore) (t : Tokenized) (copy_buff out : List Char) :
    Outcome :=
  let bg : Bool :=
    decide (t.token_count > 0) && (token_at t.buff t.tokens (t.token_count - 1) == ['&'])
  .returned
    { buff := t.buff
      tokens := if bg then t.tokens.set (t.token_count - 1) none else t.tokens
      in_background := bg
      stdout := out, stderr := [], st := add_to_history st copy_buff }

/-- The function `read_command`, given what the `read` call did. -/
def read_command (st : HistoryStore) (tokens : List (Option Nat)) (rd : ReadResult) :
    Outcome :=
  match rd with
  | .failed strerror =>
    .exited (-1) (perror "Unable to read command from keyboard. Terminating.\n".toList strerror)
  | .eintr => .undefined
  | .data bytes =>
    if strlen bytes = 0 then .undefined
    else
      let buff := strip_newline bytes
      let copy_buff := strcpy buff
      let t := tokenize_command buff tokens
      if t.token_count = 0 then
        .returned
          { buff := t.buff, tokens := t.tokens, in_background := false
            stdout := [], stderr := [], st := st }
      else
        match expand_history st t copy_buff with
        | .error o => o
        | .ok (t, copy_buff, out) => record_command st t copy_buff out


/-! ## Specification-level notions -/

/-- The delimiters of the tokenizer: space, tab and newline. -/
def is_delim (c : Char) : Bool :=
  c == ' ' || c == '\t' || c == '\n'

/-- The buffer contents with every delimiter overwritten by the terminator. -/
def zap (l : List Char) : List Char :=
  l.map (fun c => if is_delim c then NUL else c)

/-- Offsets at which a token starts when scanning `l` from offset `k`, where
`in_token` tells whether the byte before `l` belongs to a token. -/
def starts : Nat → Bool → List Char → List Nat
  | _, _, [] => []
  | k, in_token, c :: cs =>
    if is_delim c then starts (k + 1) false cs
    else if in_token then starts (k + 1) true cs
    else k :: starts (k + 1) true cs

/-- Offsets of the tokens of a buffer: the scan covers the first
`strnlen(buff, COMMAND_LENGTH)` bytes. -/
def token_starts (buff : List Char) : List Nat :=
  starts 0 false (buff.take (strnlen buff COMMAND_LENGTH))

/-- The token array after the pointers `ps` were stored from index `c` on. -/
def write_tokens : List (Option Nat) → Nat → List Nat → List (Option Nat)
  | tokens, _, [] => tokens
  | tokens, c, p :: ps => write_tokens (tokens.set c (some p)) (c + 1) ps

/-- The maximal runs of non-delimiter bytes of a line, from left to right: the line
is cut at every delimiter and the empty pieces are dropped. -/
def runs (l : List Char) : List (List Char) :=
  (l.splitOnP is_delim).filter (fun r => !r.isEmpty)

/-- The token strings of a buffer: the argument vector `tokenize_command` leaves in
a token array of `NUM_TOKENS` null pointers. -/
def tokens_of (buff : List Char) : List (List Char) :=
  let t := tokenize_command buff (List.replicate NUM_TOKENS none)
  argv t.buff t.tokens

/-- The store after the lines `lines` were appended, in order, to the empty store. -/
def record_all (lines : List (List Char)) : HistoryStore :=
  lines.foldl add_to_history empty_history

/-- A line as a caller may pass it to `add_to_history`: a C string (no terminator
byte inside) that fits in a buffer of `COMMAND_LENGTH` bytes. -/
def is_line (l : List Char) : Prop :=
  NUL ∉ l ∧ l.length < COMMAND_LENGTH

instance (l : List Char) : Decidable (is_line l) := by
  unfold is_line; infer_instance

/-- The row `"<index>\t<text>\n"` of a history listing. -/
def history_row (index : Nat) (text : List Char) : List Char :=
  (Nat.repr index).toList ++ ['\t'] ++ text ++ ['\n']

/-- The listing of `lines` numbered from `first` on, one row per line. -/
def listing (first : Nat) (lines : List (List Char)) : List Char :=
  ((lines.enumFrom first).map (fun p => history_row p.1 p.2)).flatten

/-- Whether the last token of a token list is exactly `&`. -/
def ends_with_amp (ts : List (List Char)) : Bool :=
  ts.getLast? == some ['&']

/-- A token list without its final `&` token, when it has one. -/
def strip_amp (ts : List (List Char)) : List (List Char) :=
  if ends_with_amp ts then ts.dropLast else ts

/-- The call returned, with this argument vector, background flag, standard output,
standard error and history store. -/
def returns (o : Outcome) (args : List (List Char)) (bg : Bool) (out err : List Char)
    (st : HistoryStore) : Prop :=
  match o with
  | .returned r =>
    argv r.buff r.tokens = args ∧ r.in_background = bg ∧ r.stdout = out ∧ r.stderr = err
      ∧ r.st = st
  | _ => False

instance (o : Outcome) (args : List (List Char)) (bg : Bool) (out err : List Char)
    (st : HistoryStore) : Decidable (returns o args bg out err st) := by
  unfold returns; split <;> infer_instance

/-! ## The main loop -/

/-- What the call `fork()` returned in the process under consideration. -/
inductive ForkResult where
  /-- A negative value: no child was created; `strerror` is the text of `errno`. -/
  | failed (strerror : List Char)
  /-- Zero: the process under consideration is the new child. -/
  | child
  /-- The identifier of the new child: the process under consideration is the parent. -/
  | parent (child_pid : Nat)
deriving DecidableEq

/-- What the system calls of one pass through the loop of `main` report. A result
`none` of `chdir` and of `execvp` is success, `some strerror` a failure with the text
of `errno`. -/
structure Sys where
  /-- The result of `getcwd(NULL, 0)` in the prompt; `none` is the null pointer. -/
  getcwd_prompt : Option (List Char)
  /-- The result of `getcwd(NULL, 0)` in the `pwd` command: the path or the text of
  `errno`. -/
  getcwd_pwd : Except (List Char) (List Char)
  /-- The call `chdir(path)`, where `none` is the null pointer. -/
  chdir : Option (List Char) → Option (List Char)
  /-- The call `fork()`. -/
  fork : ForkResult
  /-- The call `execvp(argv[0], argv)`. -/
  execvp : List (List Char) → Option (List Char)

/-- What the process did to its environment, in order. -/
inductive Event where
  /-- A marker recorded on entry to the block `if (tokens[0] != NULL)`, with the
  argument vector the dispatcher sees. -/
  | dispatch (args : List (List Char))
  /-- A successful `chdir(path)`. -/
  | chdir (path : Option (List Char))
  /-- A `fork()` that created the child `child_pid`, which starts with a copy of the
  token array denoting `args`. -/
  | fork (child_pid : Nat) (args : List (List Char))
  /-- The blocking call `waitpid(child_pid, NULL, 0)`. -/
  | waitpid (child_pid : Nat)
  /-- The loop `while (waitpid(-1, NULL, WNOHANG) > 0);`. -/
  | sweep
deriving DecidableEq

/-- The state of the process between two statements of the loop of `main`. -/
structure Process where
  /-- The history store. -/
  st : HistoryStore
  /-- The local array `tokens` of `main`. -/
  tokens : List (Option Nat)
  /-- Bytes written to standard output so far. -/
  stdout : List Char
  /-- Bytes written to standard error so far. -/
  stderr : List Char
  /-- What the process did to its environment so far. -/
  log : List Event
deriving DecidableEq

/-- How one pass through the body of `while (true)` ends. -/
inductive Pass where
  /-- The end of the body or a `continue` was reached; `input` are the results of the
  `read` calls still to come. -/
  | next (s : Process) (input : List ReadResult)
  /-- The process waits in a `read` call for which no input is left. -/
  | blocked (s : Process)
  /-- The process terminated with this exit status. -/
  | exited (status : Int) (s : Process)
  /-- The call `execvp` replaced the program image, started with `args`. -/
  | replaced (args : List (List Char)) (s : Process)
  /-- The process ran into behaviour the C standard leaves undefined. -/
  | undefined
deriving DecidableEq

/-- The state after a call of `read_command` returned `r`. -/
def absorb (s : Process) (r : CommandResult) : Process :=
  { st := r.st, tokens := r.tokens, stdout := s.stdout ++ r.stdout
    stderr := s.stderr ++ r.stderr, log := s.log }

/-- The statement `while (waitpid(-1, NULL, WNOHANG) > 0);` that ends the branch of an
external command, after which the loop body is over. -/
def sweep (s : Process) (input : List ReadResult) : Pass :=
  .next { s with log := s.log ++ [.sweep] } input

/-- The block `if (tokens[0] != NULL) { ... }` of `main`, entered after `read_command`
returned `r` with a first token; `s` is the state after that call. -/
def dispatch (sys : Sys) (s : Process) (r : CommandResult) (input : List ReadResult) : Pass :=
  let s := { s with log := s.log ++ [.dispatch (argv r.buff r.tokens)] }
  let command := token_at r.buff r.tokens 0
  if command = "exit".toList then .exited 0 s
  else if command = "pwd".toList then
    match sys.getcwd_pwd with
    | .ok curr_dir =>
      .next { s with stdout := s.stdout ++ "Working Directory is: ".toList ++ curr_dir ++ ['\n'] }
        input
    | .error strerror =>
      .next { s with stderr := s.stderr ++ perror "getcwd error".toList strerror } input
  else if command = "cd".toList then
    let path := (r.tokens.getD 1 none).map (tokstr r.buff)
    match sys.chdir path with
    | some strerror =>
      .next { s with stderr := s.stderr ++ perror "chdir error".toList strerror } input
    | none => .next { s with log := s.log ++ [.chdir path] } input
  else if command = "history".toList then
    .next { s with stdout := s.stdout ++ print_history s.st } input
  else
    match sys.fork with
    | .failed strerror =>
      .exited (-1) { s with stderr := s.stderr ++ perror "fork failed".toList strerror }
    | .child =>
      match sys.execvp (argv r.buff r.tokens) with
      | none => .replaced (argv r.buff r.tokens) s
      | some strerror =>
        sweep { s with stderr := s.stderr ++ perror "execvp error".toList strerror } input
    | .parent child_pid =>
      let s := { s with log := s.log ++ [.fork child_pid (argv r.buff r.tokens)] }
      if !r.in_background then
        sweep { s with log := s.log ++ [.waitpid child_pid] } input
      else
        match input with
        | [] => .blocked s
        | rd :: input =>
          match read_command s.st s.tokens rd with
          | .undefined => .undefined
          | .exited status err => .exited status { s with stderr := s.stderr ++ err }
          | .returned r2 => sweep (absorb s r2) input

/-- One pass through the body of the loop `while (true)` of `main`: the prompt, the
call of `read_command` on the next `read` result, and the dispatcher. -/
def loop_body (sys : Sys) (s : Process) (input : List ReadResult) : Pass :=
  match sys.getcwd_prompt with
  | none => .undefined
  | some cwd =>
    let s := { s with stdout := s.stdout ++ cwd ++ ['>', ' '] }
    match input with
    | [] => .blocked s
    | rd :: input =>
      match read_command s.st s.tokens rd with
      | .undefined => .undefined
      | .exited status err => .exited status { s with stderr := s.stderr ++ err }
      | .returned r =>
        match r.tokens.getD 0 none with
        | none => .next (absorb s r) input
        | some _ => dispatch sys (absorb s r) r input

/-- The loop of `main`, run for as many passes as there are entries in the list of
system-call results, or until a pass does not reach the end of the body. -/
def main_loop : List Sys → Process → List ReadResult → Pass
  | [], s, input => .next s input
  | sys :: more, s, input =>
    match loop_body sys s input with
    | .next s input => main_loop more s input
    | p => p

/-- The process at the start of `main`: an empty history, nothing written yet, and a
token array with arbitrary contents. -/
def initial (tokens : List (Option Nat)) : Process :=
  { st := empty_history, tokens := tokens, stdout := [], stderr := [], log := [] }

/-- What a caller can see of a call of `read_command`: the argument vector rather than
the raw buffer and token array. -/
inductive Observed where
  /-- The call returned. -/
  | returned (args : List (List Char)) (in_background : Bool) (stdout stderr : List Char)
      (st : HistoryStore)
  /-- The process terminated. -/
  | exited (status : Int) (stderr : List Char)
  /-- Undefined behaviour. -/
  | undefined
deriving DecidableEq

/-- The observable part of an outcome. -/
def observe : Outcome → Observed
  | .returned r => .returned (argv r.buff r.tokens) r.in_background r.stdout r.stderr r.st
  | .exited status err => .exited status err
  | .undefined => .undefined

/-- The input line with a single trailing newline removed. -/
def typed_line (bytes : List Char) : List Char :=
  if bytes.getLast? = some '\n' then bytes.dropLast else bytes

/-- The history stores reachable from the empty store: through any number of calls of
`read_command` that return, each with a token array of at least `NUM_TOKENS` entries. -/
inductive Reachable : HistoryStore → Prop where
  /-- The store at program start. -/
  | start : Reachable empty_history
  /-- The store after one more call. -/
  | step (st : HistoryStore) (tokens : List (Option Nat)) (rd : ReadResult)
      (r : CommandResult) : Reachable st → NUM_TOKENS ≤ tokens.length →
      read_command st tokens rd = .returned r → Reachable r.st

/-- The property of a recorded line: it has at least one token and its first token
does not begin with `!`. -/
def plain_command (line : List Char) : Prop :=
  ∃ first rest, tokens_of line = first :: rest ∧ first.head? ≠ some '!'

/-- A 1023-byte buffer with 512 tokens: `a a a ... a`. -/
def dense_buffer : List Char :=
  (List.replicate (COMMAND_LENGTH / 2 - 1) ['a', ' ']).flatten ++ ['a']

/-- System-call results of a pass of the parent shell in the directory `/home`: every
`fork` succeeds and yields the child 100. -/
def sample_parent : Sys :=
  { getcwd_prompt := some "/home".toList
    getcwd_pwd := .ok "/home".toList
    chdir := fun _ => none
    fork := .parent 100
    execvp := fun _ => none }

/-- System-call results of a pass of a process that `fork` has just created and in
which `execvp` finds no program to run. -/
def sample_child : Sys :=
  { getcwd_prompt := some "/home".toList
    getcwd_pwd := .ok "/home".toList
    chdir := fun _ => none
    fork := .child
    execvp := fun _ => some "No such file or directory".toList }

/-- The argument vectors of the children a process created, in order. -/
def children : List Event → List (List (List Char))
  | [] => []
  | .fork _ args :: log => args :: children log
  | _ :: log => children log

/-- The argument vectors with which the dispatcher was entered, in order. -/
def dispatched : List Event → List (List (List Char))
  | [] => []
  | .dispatch args :: log => args :: dispatched log
  | _ :: log => dispatched log

/-- The state of the process at the end of a pass, when the pass has one. -/
def Pass.process : Pass → Option Process
  | .next s _ => some s
  | .blocked s => some s
  | .exited _ s => some s
  | .replaced _ s => some s
  | .undefined => none

/-- The same pass with the raw token array of its state left out. -/
def Pass.without_tokens : Pass → Pass
  | .next s input => .next { s with tokens := [] } input
  | .blocked s => .blocked { s with tokens := [] }
  | .exited status s => .exited status { s with tokens := [] }
  | .replaced args s => .replaced args { s with tokens := [] }
  | .undefined => .undefined

/-- A result of `read_command` for the typed line `ls -l`: the blank was overwritten
by the terminator and the token array holds the offsets 0 and 3 and a null pointer. -/
def sample_result : CommandResult :=
  { buff := ['l', 's', NUL, '-', 'l']
    tokens := [some 0, some 3, none]
    in_background := false
    stdout := []
    stderr := []
    st := record_all ["ls -l".toList] }

/-! ## The tokenizer loop -/

theorem is_delim_iff (c : Char) : (c = ' ' ∨ c = '\t' ∨ c = '\n') ↔ is_delim c = true := by
  simp [is_delim, or_assoc]

theorem getD_append_cons (pre cs post : List Char) (c : Char) :
    (pre ++ c :: cs ++ post).getD pre.length NUL = c := by
  rw [List.getD_eq_getElem?_getD, List.append_assoc, List.getElem?_append_right (le_refl _)]
  simp

theorem set_append_cons (pre cs post : List Char) (c d : Char) :
    (pre ++ c :: cs ++ post).set pre.length d = (pre ++ [d]) ++ cs ++ post := by
  rw [List.append_assoc, List.set_append_right _ _ (le_refl _)]
  simp

theorem tokenize_loop (part : List Char) :
    ∀ (pre post : List Char) (tokens : List (Option Nat)) (count : Nat) (b : Bool),
      let r := (List.range' pre.length part.length).foldl tokenize_step
          { buff := pre ++ part ++ post, tokens := tokens, token_count := count, in_token := b }
      r.buff = pre ++ zap part ++ post
        ∧ r.tokens = write_tokens tokens count (starts pre.length b part)
        ∧ r.token_count = count + (starts pre.length b part).length := by
  induction part with
  | nil => intro pre post tokens count b; simp [zap, starts, write_tokens]
  | cons c cs ih =>
    intro pre post tokens count b
    simp only [List.length_cons, List.range'_succ, List.foldl_cons]
    by_cases hd : is_delim c = true
    · have hstep : tokenize_step
          { buff := pre ++ c :: cs ++ post, tokens := tokens, token_count := count, in_token := b }
          pre.length
          = { buff := (pre ++ [NUL]) ++ cs ++ post, tokens := tokens, token_count := count,
              in_token := false } := by
        simp only [tokenize_step, getD_append_cons, set_append_cons, is_delim_iff, hd, if_true]
      rw [hstep]
      have := ih (pre ++ [NUL]) post tokens count false
      simp only [List.length_append, List.length_singleton] at this
      simpa [zap, starts, hd] using this
    · cases b with
      | true =>
        have hstep : tokenize_step
            { buff := pre ++ c :: cs ++ post, tokens := tokens, token_count := count,
              in_token := true } pre.length
            = { buff := (pre ++ [c]) ++ cs ++ post, tokens := tokens, token_count := count,
                in_token := true } := by
          simp only [tokenize_step, getD_append_cons, is_delim_iff, hd]
          simp
        rw [hstep]
        have := ih (pre ++ [c]) post tokens count true
        simp only [List.length_append, List.length_singleton] at this
        simpa [zap, starts, hd] using this
      | false =>
        have hstep : tokenize_step
            { buff := pre ++ c :: cs ++ post, tokens := tokens, token_count := count,
              in_token := false } pre.length
            = { buff := (pre ++ [c]) ++ cs ++ post
                tokens := tokens.set count (some pre.length), token_count := count + 1,
                in_token := true } := by
          simp only [tokenize_step, getD_append_cons, is_delim_iff, hd]
          simp
        rw [hstep]
        have := ih (pre ++ [c]) post (tokens.set count (some pre.length)) (count + 1) true
        simp only [List.length_append, List.length_singleton] at this
        obtain ⟨h1, h2, h3⟩ := this
        refine ⟨?_, ?_, ?_⟩
        · simpa [zap, hd] using h1
        · simpa [starts, hd, write_tokens] using h2
        · have h3 : _ = _ := h3
          simp only [List.append_assoc, List.cons_append, List.singleton_append,
            List.nil_append] at h3 ⊢
          rw [h3]
          simp [starts, hd]; omega

theorem starts_length_le (l : List Char) :
    ∀ (k : Nat) (b : Bool), 2 * (starts k b l).length ≤ l.length + (if b then 0 else 1) := by
  induction l with
  | nil => intro k b; simp [starts]
  | cons c cs ih =>
    intro k b
    by_cases hd : is_delim c = true
    · have := ih (k + 1) false
      simp only [starts, hd, if_true, List.length_cons]
      simp at this
      split <;> omega
    · cases b with
      | true =>
        have := ih (k + 1) true
        simp [starts, hd] at this ⊢
        omega
      | false =>
        have := ih (k + 1) true
        simp [starts, hd] at this ⊢
        omega

theorem write_tokens_eq (ps : List Nat) :
    ∀ (tokens : List (Option Nat)) (c : Nat), c + ps.length ≤ tokens.length →
      write_tokens tokens c ps = tokens.take c ++ ps.map some ++ tokens.drop (c + ps.length) := by
  induction ps with
  | nil => intro tokens c _; simp [write_tokens]
  | cons p ps ih =>
    intro tokens c h
    simp only [List.length_cons] at h
    rw [write_tokens, ih _ _ (by rw [List.length_set]; omega)]
    rw [List.set_eq_take_append_cons_drop, if_pos (by omega)]
    have h1 : (tokens.take c ++ some p :: tokens.drop (c + 1)).take (c + 1)
        = tokens.take c ++ [some p] := by
      rw [List.take_append_eq_append_take]
      simp [List.length_take, Nat.min_eq_left (show c ≤ tokens.length by omega)]
    have h2 : (tokens.take c ++ some p :: tokens.drop (c + 1)).drop (c + 1 + ps.length)
        = tokens.drop (c + (ps.length + 1)) := by
      rw [List.drop_append_eq_append_drop]
      simp [List.length_take, Nat.min_eq_left (show c ≤ tokens.length by omega)]
      have e1 : c + 1 + ps.length - c = ps.length + 1 := by omega
      rw [List.drop_eq_nil_of_le (by simp; omega), e1]
      simp [List.drop_drop]
      congr 1; omega
    rw [h1, h2]
    simp

theorem argv_append_none (buff : List Char) (ps : List Nat) (rest : List (Option Nat)) :
    argv buff (ps.map some ++ none :: rest) = ps.map (tokstr buff) := by
  induction ps with
  | nil => simp [argv]
  | cons p ps ih => simp [argv, ih]

/-- The token pointers `tokenize_command` stores for a buffer. -/
theorem tokenize_command_eq (buff : List Char) (tokens : List (Option Nat))
    (htok : NUM_TOKENS ≤ tokens.length) :
    (token_starts buff).length < NUM_TOKENS ∧
    tokenize_command buff tokens =
      { buff := zap (buff.take (strnlen buff COMMAND_LENGTH))
          ++ buff.drop (strnlen buff COMMAND_LENGTH)
        tokens := (token_starts buff).map some
          ++ none :: tokens.drop ((token_starts buff).length + 1)
        token_count := (token_starts buff).length } := by
  generalize hps_def : token_starts buff = ps
  generalize hn_def : strnlen buff COMMAND_LENGTH = n
  have hps_eq : ps = starts 0 false (buff.take n) := by
    rw [← hps_def, ← hn_def]; rfl
  have hn : n ≤ COMMAND_LENGTH := by rw [← hn_def]; exact Nat.min_le_right _ _
  have hnl : n ≤ buff.length := by
    rw [← hn_def]
    refine le_trans (Nat.min_le_left _ _) ?_
    exact (List.takeWhile_sublist _).length_le
  have hps : ps.length < NUM_TOKENS := by
    have := starts_length_le (buff.take n) 0 false
    rw [← hps_eq] at this
    simp only [List.length_take, Nat.min_eq_left hnl] at this
    simp only [NUM_TOKENS, COMMAND_LENGTH] at hn ⊢
    simp at this
    omega
  refine ⟨hps, ?_⟩
  have hloop := tokenize_loop (buff.take n) [] (buff.drop n) tokens 0 false
  simp only [List.length_nil, List.nil_append, List.take_append_drop, List.length_take,
    Nat.min_eq_left hnl, Nat.zero_add] at hloop
  rw [← hps_eq] at hloop
  obtain ⟨h1, h2, h3⟩ := hloop
  have hw := write_tokens_eq ps tokens 0 (by simp; omega)
  simp only [tokenize_command, List.range_eq_range', hn_def]
  rw [h1, h2, h3, hw]
  simp only [List.take_zero, List.nil_append, Nat.zero_add]
  congr 1
  rw [List.set_append_right _ _ (by simp)]
  simp only [List.length_map, Nat.sub_self]
  congr 1
  rw [List.set_eq_take_append_cons_drop, if_pos (by simp; omega)]
  simp [List.drop_drop, Nat.add_comm]

theorem argv_tokenize_command (buff : List Char) (tokens : List (Option Nat))
    (htok : NUM_TOKENS ≤ tokens.length) :
    argv (tokenize_command buff tokens).buff (tokenize_command buff tokens).tokens
      = tokens_of buff := by
  have h1 := (tokenize_command_eq buff tokens htok).2
  have h2 := (tokenize_command_eq buff (List.replicate NUM_TOKENS none) (by simp)).2
  simp only [tokens_of]
  rw [h1, h2]
  simp only [argv_append_none]

theorem token_count_tokenize_command (buff : List Char) (tokens : List (Option Nat))
    (htok : NUM_TOKENS ≤ tokens.length) :
    (tokenize_command buff tokens).token_count = (tokens_of buff).length := by
  have h1 := (tokenize_command_eq buff tokens htok).2
  have h2 := (tokenize_command_eq buff (List.replicate NUM_TOKENS none) (by simp)).2
  simp only [tokens_of]
  rw [h1, h2]
  simp only [argv_append_none, List.length_map]

/-! ## Tokens are the maximal runs -/

theorem strcpy_eq_self {l : List Char} (h : NUL ∉ l) : strcpy l = l := by
  rw [strcpy, List.takeWhile_eq_self_iff]
  intro x hx
  simp only [bne_iff_ne, ne_eq]
  rintro rfl
  exact h hx

theorem splitOnP_head (l : List Char) :
    ∃ t, l.splitOnP is_delim = l.takeWhile (fun c => !is_delim c) :: t := by
  induction l with
  | nil => exact ⟨[], by simp⟩
  | cons c cs ih =>
    obtain ⟨t, ht⟩ := ih
    rw [List.splitOnP_cons]
    by_cases hd : is_delim c = true
    · exact ⟨cs.splitOnP is_delim, by simp [hd]⟩
    · exact ⟨t, by simp [hd, ht, List.modifyHead]⟩

theorem strcpy_zap (l : List Char) (h : NUL ∉ l) :
    strcpy (zap l) = l.takeWhile (fun c => !is_delim c) := by
  induction l with
  | nil => simp [zap, strcpy]
  | cons c cs ih =>
    have hc : c ≠ NUL := fun e => h (by simp [e])
    have hcs : NUL ∉ cs := fun e => h (List.mem_cons_of_mem _ e)
    have ih := ih hcs
    simp only [zap, strcpy] at ih ⊢
    by_cases hd : is_delim c = true
    · simp [hd, List.takeWhile_cons]
    · simp [hd, List.takeWhile_cons, hc, ih]

theorem tokstr_append (pre l : List Char) : tokstr (pre ++ l) pre.length = strcpy l := by
  simp [tokstr]

theorem starts_runs (l : List Char) :
    ∀ (pre : List Char) (b : Bool), NUL ∉ l →
      (starts pre.length b l).map (tokstr (pre ++ zap l))
        = ((if b then (l.splitOnP is_delim).tail else l.splitOnP is_delim).filter
            (fun r => !r.isEmpty)) := by
  induction l with
  | nil => intro pre b _; cases b <;> simp [starts]
  | cons c cs ih =>
    intro pre b h
    have hc : c ≠ NUL := fun e => h (by simp [e])
    have hcs : NUL ∉ cs := fun e => h (List.mem_cons_of_mem _ e)
    obtain ⟨t, ht⟩ := splitOnP_head cs
    rw [List.splitOnP_cons]
    by_cases hd : is_delim c = true
    · have := ih (pre ++ [NUL]) false hcs
      simp only [List.length_append, List.length_singleton, List.append_assoc,
        List.singleton_append, Bool.false_eq_true, if_false] at this
      simp only [starts, hd, if_true, zap, List.map_cons]
      simp only [zap] at this
      rw [this]
      cases b <;> simp
    · have := ih (pre ++ [c]) true hcs
      simp only [List.length_append, List.length_singleton, List.append_assoc,
        List.singleton_append, if_true] at this
      simp only [zap] at this
      cases b with
      | true =>
        simp only [starts, hd, if_true, zap, List.map_cons, Bool.false_eq_true, if_false]
        rw [this, ht]
        simp [List.modifyHead]
      | false =>
        simp only [starts, hd, zap, List.map_cons, Bool.false_eq_true, if_false]
        rw [this, ht]
        have hk : tokstr (pre ++ c :: List.map (fun c => if is_delim c = true then NUL else c) cs)
            pre.length = c :: cs.takeWhile (fun c => !is_delim c) := by
          rw [tokstr_append]
          have hz := strcpy_zap cs hcs
          simp only [zap, strcpy] at hz ⊢
          simp [List.takeWhile_cons, hc, hz]
        rw [hk]
        simp [List.modifyHead]

theorem strnlen_eq_length {buff : List Char} (hnul : NUL ∉ buff)
    (hlen : buff.length ≤ COMMAND_LENGTH) : strnlen buff COMMAND_LENGTH = buff.length := by
  simp [strnlen, strlen, strcpy_eq_self hnul, hlen]

theorem tokens_of_eq_map (buff : List Char) :
    tokens_of buff = (token_starts buff).map
      (tokstr (zap (buff.take (strnlen buff COMMAND_LENGTH))
        ++ buff.drop (strnlen buff COMMAND_LENGTH))) := by
  have h2 := (tokenize_command_eq buff (List.replicate NUM_TOKENS none) (by simp)).2
  simp only [tokens_of]
  rw [h2]
  simp only [argv_append_none]

theorem tokens_of_eq_runs (buff : List Char) (hnul : NUL ∉ buff)
    (hlen : buff.length ≤ COMMAND_LENGTH) : tokens_of buff = runs buff := by
  rw [tokens_of_eq_map, token_starts, strnlen_eq_length hnul hlen]
  have := starts_runs buff [] false hnul
  simpa [runs] using this

/-! ## The history ring buffer -/

theorem record_all_snoc (lines : List (List Char)) (x : List Char) :
    record_all (lines ++ [x]) = add_to_history (record_all lines) x := by
  simp [record_all, List.foldl_append]

theorem record_all_slots (lines : List (List Char)) :
    (record_all lines).history_count = lines.length ∧
    ∀ i, lines.length - HISTORY_DEPTH ≤ i → i < lines.length →
      (record_all lines).history[i % HISTORY_DEPTH]? = lines[i]?.map strcpy := by
  induction lines using List.reverseRecOn with
  | nil => exact ⟨rfl, fun i _ h => absurd h (Nat.not_lt_zero _)⟩
  | append_singleton ls x ih =>
    obtain ⟨hc, hs⟩ := ih
    rw [record_all_snoc]
    refine ⟨by simp [add_to_history, hc], ?_⟩
    intro i hlo hhi
    simp only [List.length_append, List.length_singleton] at hlo hhi
    simp only [add_to_history, hc]
    by_cases hi : i = ls.length
    · subst hi
      rw [List.getElem?_set_self (by
        rw [(record_all ls).size_eq]; exact Nat.mod_lt _ (by decide))]
      simp
    · have hlt : i < ls.length := by omega
      have hne : ls.length % HISTORY_DEPTH ≠ i % HISTORY_DEPTH := by
        simp only [HISTORY_DEPTH] at hlo ⊢
        omega
      rw [List.getElem?_set_ne hne, hs i (by omega) hlt, List.getElem?_append_left hlt]

theorem record_all_count (lines : List (List Char)) :
    (record_all lines).history_count = lines.length :=
  (record_all_slots lines).1

theorem record_all_getD (lines : List (List Char)) (hl : ∀ l ∈ lines, NUL ∉ l) (i : Nat)
    (hlo : lines.length - HISTORY_DEPTH ≤ i) (hhi : i < lines.length) :
    (record_all lines).history.getD (i % HISTORY_DEPTH) [] = lines[i] := by
  rw [List.getD_eq_getElem?_getD, (record_all_slots lines).2 i hlo hhi,
    List.getElem?_eq_getElem hhi]
  simp [strcpy_eq_self (hl _ (List.getElem_mem hhi))]

theorem print_rows_foldl (st : HistoryStore) (f : Nat → Nat) (is : List Nat) :
    ∀ out : List Char,
      is.foldl (fun out i => print_history_row st out i (f i)) out
        = out ++ (is.map (fun i => print_history_row st [] i (f i))).flatten := by
  induction is with
  | nil => intro out; simp
  | cons i is ih =>
    intro out
    rw [List.foldl_cons, ih]
    simp [print_history_row, List.append_assoc]

theorem repr_toList (n : Nat) : (Nat.repr n).toList = Nat.toDigits 10 n := rfl

/-- C1: after any sequence of `add_to_history` calls from the empty store, each with
a C string shorter than `COMMAND_LENGTH`, `history_count` is the number of calls, every
logical index `i` with `max(0, history_count - HISTORY_DEPTH) <= i < history_count`
has its line in slot `i % HISTORY_DEPTH`, and so each slot holds the appended line
with the largest index congruent to that slot. -/
theorem C1_ring_buffer_invariant (lines : List (List Char))
    (hlines : ∀ l ∈ lines, is_line l) :
    (record_all lines).history_count = lines.length ∧
    (∀ i, (record_all lines).history_count - HISTORY_DEPTH ≤ i →
      i < (record_all lines).history_count →
      (record_all lines).history[i % HISTORY_DEPTH]? = lines[i]?) ∧
    (∀ slot i, i < lines.length → i % HISTORY_DEPTH = slot →
      (∀ j, j < lines.length → j % HISTORY_DEPTH = slot → j ≤ i) →
      (record_all lines).history[slot]? = lines[i]?) := by
  have hmain : ∀ i, lines.length - HISTORY_DEPTH ≤ i → i < lines.length →
      (record_all lines).history[i % HISTORY_DEPTH]? = lines[i]? := by
    intro i hlo hhi
    rw [(record_all_slots lines).2 i hlo hhi, List.getElem?_eq_getElem hhi]
    simp [strcpy_eq_self (hlines _ (List.getElem_mem hhi)).1]
  refine ⟨record_all_count lines, ?_, ?_⟩
  · intro i hlo hhi
    rw [record_all_count] at hlo hhi
    exact hmain i hlo hhi
  · intro slot i hi hslot hmax
    rw [← hslot]
    refine hmain i ?_ hi
    by_contra hcon
    have h1 : i + HISTORY_DEPTH < lines.length := by omega
    have h2 := hmax (i + HISTORY_DEPTH) h1 (by rw [Nat.add_mod_right]; exact hslot)
    simp only [HISTORY_DEPTH] at h2
    omega

/-- A use of C1: eleven one-letter lines `a` .. `k`; the eleventh line, of logical
index 10, has wrapped around into slot 0. -/
theorem C1_ring_buffer_invariant_witness :
    (∀ l ∈ (List.range 11).map (fun i => [Char.ofNat (97 + i)]), is_line l) ∧
    (record_all ((List.range 11).map (fun i => [Char.ofNat (97 + i)]))).history[
        10 % HISTORY_DEPTH]?
      = ((List.range 11).map (fun i => [Char.ofNat (97 + i)]))[10]? :=
  ⟨by decide, (C1_ring_buffer_invariant ((List.range 11).map (fun i => [Char.ofNat (97 + i)]))
    (by decide)).2.1 10 (by decide) (by decide)⟩

theorem record_all_untouched (lines : List (List Char)) :
    ∀ i, lines.length ≤ i → i < HISTORY_DEPTH → (record_all lines).history[i]? = some [] := by
  induction lines using List.reverseRecOn with
  | nil =>
    intro i _ hi
    simp only [record_all, List.foldl_nil, empty_history]
    rw [List.getElem?_replicate]
    simp [hi]
  | append_singleton ls x ih =>
    intro i hlo hhi
    simp only [List.length_append, List.length_singleton] at hlo
    rw [record_all_snoc]
    simp only [add_to_history, record_all_count]
    have hne : ls.length % HISTORY_DEPTH ≠ i := by
      rw [Nat.mod_eq_of_lt (by omega)]; omega
    rw [List.getElem?_set_ne hne]
    exact ih i (by omega) hhi

/-- What `print_history` writes while at most `HISTORY_DEPTH` lines were appended:
always ten rows, those of the appended lines followed by numbered rows with an empty
text for the slots not yet used. -/
theorem print_history_short (lines : List (List Char))
    (hlines : ∀ l ∈ lines, is_line l) (hN : lines.length ≤ HISTORY_DEPTH) :
    print_history (record_all lines)
      = listing 1 (lines ++ List.replicate (HISTORY_DEPTH - lines.length) []) := by
  have hcount := record_all_count lines
  rw [print_history, if_pos (by rw [hcount]; exact hN), List.range_eq_range',
    print_rows_foldl, listing, List.nil_append]
  refine congrArg List.flatten ?_
  apply List.ext_getElem
  · simp; omega
  · intro k h1 h2
    simp only [List.length_map, List.length_range'] at h1
    simp only [List.getElem_map, List.getElem_range', List.getElem_enumFrom,
      print_history_row, history_row, snprintf_d_tab, repr_toList, Nat.one_mul,
      List.nil_append, Nat.zero_add]
    have e : k + 1 = 1 + k := Nat.add_comm _ _
    by_cases hk : k < lines.length
    · have hget := record_all_getD lines (fun l hl => (hlines l hl).1) k (by omega) hk
      rw [Nat.mod_eq_of_lt h1] at hget
      rw [hget, strcpy_eq_self (hlines _ (List.getElem_mem hk)).1,
        List.getElem_append_left hk, e]
    · have h0 := record_all_untouched lines k (by omega) h1
      have hget : (record_all lines).history.getD k [] = [] := by
        rw [List.getD_eq_getElem?_getD, h0]; rfl
      have hb : k < (lines ++ List.replicate (HISTORY_DEPTH - lines.length)
          ([] : List Char)).length := by
        simp; omega
      have hr : (lines ++ List.replicate (HISTORY_DEPTH - lines.length) ([] : List Char))[k]
          = [] := by
        rw [List.getElem_append_right (by omega)]
        simp
      rw [hget, hr, e]
      rfl

/-- C2, at the failing input: after the two lines `a` and `b`, `print_history` writes
ten rows, the last eight of them for slots that were never appended, instead of
the two rows `"1\ta\n2\tb\n"` of the listing of the appended lines. -/
theorem C2_print_history_two_lines :
    print_history (record_all [['a'], ['b']])
      = "1\ta\n2\tb\n3\t\n4\t\n5\t\n6\t\n7\t\n8\t\n9\t\n10\t\n".toList
    ∧ listing 1 [['a'], ['b']] = "1\ta\n2\tb\n".toList
    ∧ print_history (record_all [['a'], ['b']]) ≠ listing 1 [['a'], ['b']] := by
  decide

/-- C3: after `N > HISTORY_DEPTH` lines were appended to the empty store,
`print_history` writes exactly the ten rows `"<i>\t<line_i>\n"` for the 1-based
indices `i = N-9 .. N` in increasing order, `line_i` being the `i`-th line appended. -/
theorem C3_print_history_window (lines : List (List Char))
    (hlines : ∀ l ∈ lines, is_line l) (hN : HISTORY_DEPTH < lines.length) :
    print_history (record_all lines)
      = listing (lines.length - 9) (lines.drop (lines.length - HISTORY_DEPTH))
    ∧ (lines.drop (lines.length - HISTORY_DEPTH)).length = HISTORY_DEPTH := by
  have hlen : (lines.drop (lines.length - HISTORY_DEPTH)).length = HISTORY_DEPTH := by
    rw [List.length_drop]; omega
  refine ⟨?_, hlen⟩
  have hcount := record_all_count lines
  rw [print_history, if_neg (by rw [hcount]; omega), print_rows_foldl, hcount, listing,
    List.nil_append]
  refine congrArg List.flatten ?_
  apply List.ext_getElem
  · simp [hlen]
  · intro k h1 h2
    simp only [List.length_map, List.length_range'] at h1
    have hk : lines.length - HISTORY_DEPTH + k < lines.length := by omega
    have hget := record_all_getD lines (fun l hl => (hlines l hl).1)
      (lines.length - HISTORY_DEPTH + k) (by omega) hk
    have hnul : NUL ∉ lines[lines.length - HISTORY_DEPTH + k] :=
      (hlines _ (List.getElem_mem hk)).1
    simp only [List.getElem_map, List.getElem_range', List.getElem_enumFrom,
      List.getElem_drop, print_history_row, history_row, snprintf_d_tab, repr_toList,
      Nat.one_mul, List.nil_append]
    rw [hget, strcpy_eq_self hnul]
    have e : lines.length - HISTORY_DEPTH + k + 1 = lines.length - 9 + k := by
      simp only [HISTORY_DEPTH] at hN ⊢
      omega
    rw [e]

/-- A use of C3: eleven one-letter lines; the listing starts at index 2. -/
theorem C3_print_history_window_witness :
    (∀ l ∈ (List.range 11).map (fun i => [Char.ofNat (97 + i)]), is_line l) ∧
    HISTORY_DEPTH < ((List.range 11).map (fun i => [Char.ofNat (97 + i)])).length ∧
    print_history (record_all ((List.range 11).map (fun i => [Char.ofNat (97 + i)])))
      = "2\tb\n3\tc\n4\td\n5\te\n6\tf\n7\tg\n8\th\n9\ti\n10\tj\n11\tk\n".toList :=
  ⟨by decide, by decide,
    (C3_print_history_window ((List.range 11).map (fun i => [Char.ofNat (97 + i)]))
      (by decide) (by decide)).1.trans (by decide)⟩

/-! ## The line reader -/

theorem strcpy_strcpy (l : List Char) : strcpy (strcpy l) = strcpy l := by
  simp only [strcpy]
  rw [List.takeWhile_eq_self_iff]
  intro x hx
  exact List.mem_takeWhile_imp (p := fun c => c != NUL) hx

theorem snoc_of_ne_nil {α : Type} {l : List α} (h : l ≠ []) : ∃ qs q, l = qs ++ [q] :=
  ⟨l.dropLast, l.getLast h, (List.dropLast_append_getLast h).symm⟩

theorem tokenize_view (buff : List Char) (tokens : List (Option Nat))
    (htok : NUM_TOKENS ≤ tokens.length) :
    ∃ (B : List Char) (ps : List Nat) (rest : List (Option Nat)),
      tokenize_command buff tokens
        = { buff := B, tokens := ps.map some ++ none :: rest, token_count := ps.length }
      ∧ tokens_of buff = ps.map (tokstr B)
      ∧ NUM_TOKENS ≤ (ps.map some ++ none :: rest).length := by
  obtain ⟨hlt, heq⟩ := tokenize_command_eq buff tokens htok
  refine ⟨_, _, _, heq, tokens_of_eq_map buff, ?_⟩
  simp only [List.length_append, List.length_map, List.length_cons, List.length_drop]
  omega

theorem token_at_zero (B : List Char) (ps : List Nat) (rest : List (Option Nat)) :
    token_at B (ps.map some ++ none :: rest) 0 = ((ps.map (tokstr B)).head?).getD [] := by
  cases ps <;> simp [token_at]

theorem argv_set_zero (B : List Char) (ps : List Nat) (rest : List (Option Nat)) :
    argv B ((ps.map some ++ none :: rest).set 0 none) = [] := by
  cases ps <;> simp [argv]

theorem token_at_last (B : List Char) (ps : List Nat) (rest : List (Option Nat))
    (h : ps ≠ []) :
    (ps.map (tokstr B)).getLast?
      = some (token_at B (ps.map some ++ none :: rest) (ps.length - 1)) := by
  obtain ⟨qs, q, rfl⟩ := snoc_of_ne_nil h
  have hget : ((qs ++ [q]).map some ++ none :: rest)[(qs ++ [q]).length - 1]?
      = some (some q) := by
    simp only [List.map_append, List.map_cons, List.map_nil, List.append_assoc,
      List.singleton_append, List.length_append, List.length_singleton, Nat.add_sub_cancel]
    rw [List.getElem?_append_right (by simp)]
    simp
  simp only [token_at, List.getD_eq_getElem?_getD, hget]
  simp

theorem argv_set_last (B : List Char) (ps : List Nat) (rest : List (Option Nat))
    (h : ps ≠ []) :
    argv B ((ps.map some ++ none :: rest).set (ps.length - 1) none)
      = (ps.map (tokstr B)).dropLast := by
  obtain ⟨qs, q, rfl⟩ := snoc_of_ne_nil h 
  have : ((qs ++ [q]).map some ++ none :: rest).set ((qs ++ [q]).length - 1) none
      = qs.map some ++ none :: none :: rest := by
    simp only [List.map_append, List.map_cons, List.map_nil, List.append_assoc,
      List.singleton_append, List.length_append, List.length_singleton, Nat.add_sub_cancel]
    rw [List.set_append_right _ _ (by simp)]
    simp
  rw [this, argv_append_none]
  simp [List.dropLast_concat]

theorem record_command_returns (st : HistoryStore) (line : List Char)
    (tokens : List (Option Nat)) (htok : NUM_TOKENS ≤ tokens.length)
    (copy_buff out : List Char) :
    returns (record_command st (tokenize_command line tokens) copy_buff out)
      (strip_amp (tokens_of line)) (ends_with_amp (tokens_of line)) out []
      (add_to_history st copy_buff) := by
  obtain ⟨B, ps, rest, ht, hts, -⟩ := tokenize_view line tokens htok
  rw [ht, hts]
  by_cases hps : ps = []
  · subst hps
    simp [record_command, returns, strip_amp, ends_with_amp, argv]
  · have hlast := token_at_last B ps rest hps
    have hpos : 0 < ps.length := List.length_pos.mpr hps
    by_cases hamp : token_at B (ps.map some ++ none :: rest) (ps.length - 1) = ['&']
    · have he : ends_with_amp (ps.map (tokstr B)) = true := by
        simp [ends_with_amp, hlast, hamp]
      simp only [record_command, returns, strip_amp, he, hamp, hpos, gt_iff_lt,
        decide_True, beq_self_eq_true, Bool.and_self, if_true, argv_set_last B ps rest hps,
        and_self]
    · have he : ends_with_amp (ps.map (tokstr B)) = false := by
        simp [ends_with_amp, hlast, hamp]
      have hb : (token_at B (ps.map some ++ none :: rest) (ps.length - 1) == ['&']) = false := by
        simpa using hamp
      simp only [record_command, returns, strip_amp, he, hb, Bool.and_false,
        Bool.false_eq_true, if_false, argv_append_none, and_self]

theorem strip_newline_of_strlen_zero (bytes : List Char) (h : strlen bytes = 0) :
    tokens_of (strip_newline bytes) = [] := by
  have hs : strip_newline bytes = bytes := by
    simp only [strip_newline, h]
    cases bytes with
    | nil => simp [NUL]
    | cons c cs =>
      by_cases hc : c = NUL
      · subst hc; simp [NUL]
      · simp [strlen, strcpy, List.takeWhile_cons, hc] at h
  rw [hs, tokens_of_eq_map, token_starts]
  simp [strnlen, h, starts]

theorem read_command_data (st : HistoryStore) (tokens : List (Option Nat))
    (bytes : List Char) (htok : NUM_TOKENS ≤ tokens.length)
    (hne : tokens_of (strip_newline bytes) ≠ []) :
    read_command st tokens (.data bytes)
      = match expand_history st (tokenize_command (strip_newline bytes) tokens)
          (strcpy (strip_newline bytes)) with
        | .error o => o
        | .ok (t, copy_buff, out) => record_command st t copy_buff out := by
  have h0 : strlen bytes ≠ 0 := fun h => hne (strip_newline_of_strlen_zero bytes h)
  have hc : (tokenize_command (strip_newline bytes) tokens).token_count ≠ 0 := by
    rw [token_count_tokenize_command _ _ htok]
    exact fun h => hne (List.length_eq_zero.mp h)
  simp only [read_command, h0, hc, if_false]

theorem first_token_eq (buff : List Char) (tokens : List (Option Nat))
    (htok : NUM_TOKENS ≤ tokens.length) (first : List Char)
    (hfirst : (tokens_of buff).head? = some first) :
    token_at (tokenize_command buff tokens).buff (tokenize_command buff tokens).tokens 0
      = first := by
  obtain ⟨B, ps, rest, ht, hts, -⟩ := tokenize_view buff tokens htok
  rw [ht, token_at_zero, ← hts, hfirst]
  rfl

theorem argv_error (buff : List Char) (tokens : List (Option Nat))
    (htok : NUM_TOKENS ≤ tokens.length) :
    argv (tokenize_command buff tokens).buff ((tokenize_command buff tokens).tokens.set 0 none)
      = [] := by
  obtain ⟨B, ps, rest, ht, -, -⟩ := tokenize_view buff tokens htok
  rw [ht, argv_set_zero]

theorem tokens_length_tokenize (buff : List Char) (tokens : List (Option Nat))
    (htok : NUM_TOKENS ≤ tokens.length) :
    NUM_TOKENS ≤ (tokenize_command buff tokens).tokens.length := by
  obtain ⟨B, ps, rest, ht, -, hl⟩ := tokenize_view buff tokens htok
  rw [ht]; exact hl

theorem read_command_typed (st : HistoryStore) (tokens : List (Option Nat))
    (bytes first : List Char) (htok : NUM_TOKENS ≤ tokens.length)
    (hfirst : (tokens_of (strip_newline bytes)).head? = some first)
    (hbang : first.head? ≠ some '!') :
    returns (read_command st tokens (.data bytes))
      (strip_amp (tokens_of (strip_newline bytes)))
      (ends_with_amp (tokens_of (strip_newline bytes))) [] []
      (add_to_history st (strcpy (strip_newline bytes))) := by
  have hne : tokens_of (strip_newline bytes) ≠ [] := by
    intro h; simp [h] at hfirst
  rw [read_command_data st tokens bytes htok hne]
  simp only [expand_history, first_token_eq _ _ htok first hfirst, hbang, if_false]
  exact record_command_returns st _ tokens htok _ _

theorem read_command_bangbang_empty (st : HistoryStore) (tokens : List (Option Nat))
    (bytes : List Char) (htok : NUM_TOKENS ≤ tokens.length)
    (hfirst : (tokens_of (strip_newline bytes)).head? = some ['!', '!'])
    (hcount : st.history_count = 0) :
    returns (read_command st tokens (.data bytes)) [] false [] no_previous_command st := by
  have hne : tokens_of (strip_newline bytes) ≠ [] := by
    intro h; simp [h] at hfirst
  rw [read_command_data st tokens bytes htok hne]
  simp only [expand_history, first_token_eq _ _ htok _ hfirst, hcount, if_true,
    List.head?_cons]
  simp only [returns, argv_error _ _ htok, and_self]

theorem read_command_bangbang (st : HistoryStore) (tokens : List (Option Nat))
    (bytes : List Char) (htok : NUM_TOKENS ≤ tokens.length)
    (hfirst : (tokens_of (strip_newline bytes)).head? = some ['!', '!'])
    (hcount : st.history_count ≠ 0) :
    returns (read_command st tokens (.data bytes))
      (strip_amp (tokens_of
        (strcpy (st.history.getD ((st.history_count - 1) % HISTORY_DEPTH) []))))
      (ends_with_amp (tokens_of
        (strcpy (st.history.getD ((st.history_count - 1) % HISTORY_DEPTH) []))))
      (strcpy (st.history.getD ((st.history_count - 1) % HISTORY_DEPTH) []) ++ ['\n']) []
      (add_to_history st
        (strcpy (st.history.getD ((st.history_count - 1) % HISTORY_DEPTH) []))) := by
  have hne : tokens_of (strip_newline bytes) ≠ [] := by
    intro h; simp [h] at hfirst
  rw [read_command_data st tokens bytes htok hne]
  simp only [expand_history, first_token_eq _ _ htok _ hfirst, hcount, if_true, if_false,
    List.head?_cons, strcpy_strcpy]
  exact record_command_returns st _ _ (tokens_length_tokenize _ _ htok) _ _

theorem read_command_bang_invalid (st : HistoryStore) (tokens : List (Option Nat))
    (bytes s : List Char) (num : Int) (htok : NUM_TOKENS ≤ tokens.length)
    (hfirst : (tokens_of (strip_newline bytes)).head? = some ('!' :: s))
    (hs : s ≠ ['!']) (hnum : atoi s = some num)
    (hwin : num ≤ 0 ∨ num > (st.history_count : Int)
      ∨ num ≤ (st.history_count : Int) - (HISTORY_DEPTH : Int)) :
    returns (read_command st tokens (.data bytes)) [] false [] invalid_command_number st := by
  have hne : tokens_of (strip_newline bytes) ≠ [] := by
    intro h; simp [h] at hfirst
  have hs2 : ¬ ('!' :: s = ['!', '!']) := by simpa using hs
  rw [read_command_data st tokens bytes htok hne]
  simp only [expand_history, first_token_eq _ _ htok _ hfirst, if_true, hs2, if_false,
    List.head?_cons, List.tail_cons, hnum, hwin]
  simp only [returns, argv_error _ _ htok, and_self]

theorem read_command_bang_valid (st : HistoryStore) (tokens : List (Option Nat))
    (bytes s : List Char) (num : Int) (htok : NUM_TOKENS ≤ tokens.length)
    (hfirst : (tokens_of (strip_newline bytes)).head? = some ('!' :: s))
    (hs : s ≠ ['!']) (hnum : atoi s = some num)
    (hwin : ¬ (num ≤ 0 ∨ num > (st.history_count : Int)
      ∨ num ≤ (st.history_count : Int) - (HISTORY_DEPTH : Int))) :
    returns (read_command st tokens (.data bytes))
      (strip_amp (tokens_of
        (strcpy (st.history.getD ((num - 1).toNat % HISTORY_DEPTH) []))))
      (ends_with_amp (tokens_of
        (strcpy (st.history.getD ((num - 1).toNat % HISTORY_DEPTH) []))))
      (strcpy (st.history.getD ((num - 1).toNat % HISTORY_DEPTH) []) ++ ['\n']) []
      (add_to_history st
        (strcpy (st.history.getD ((num - 1).toNat % HISTORY_DEPTH) []))) := by
  have hne : tokens_of (strip_newline bytes) ≠ [] := by
    intro h; simp [h] at hfirst
  have hs2 : ¬ ('!' :: s = ['!', '!']) := by simpa using hs
  rw [read_command_data st tokens bytes htok hne]
  simp only [expand_history, first_token_eq _ _ htok _ hfirst, if_true, hs2, if_false,
    List.head?_cons, List.tail_cons, hnum, hwin, strcpy_strcpy]
  exact record_command_returns st _ _ (tokens_length_tokenize _ _ htok) _ _

theorem read_command_bang_undefined (st : HistoryStore) (tokens : List (Option Nat))
    (bytes s : List Char) (htok : NUM_TOKENS ≤ tokens.length)
    (hfirst : (tokens_of (strip_newline bytes)).head? = some ('!' :: s))
    (hs : s ≠ ['!']) (hnum : atoi s = none) :
    read_command st tokens (.data bytes) = .undefined := by
  have hne : tokens_of (strip_newline bytes) ≠ [] := by
    intro h; simp [h] at hfirst
  have hs2 : ¬ ('!' :: s = ['!', '!']) := by simpa using hs
  rw [read_command_data st tokens bytes htok hne]
  simp only [expand_history, first_token_eq _ _ htok _ hfirst, if_true, hs2, if_false,
    List.head?_cons, List.tail_cons, hnum]

theorem strcpy_append_of_nul (l rest : List Char) (h : rest = [] ∨ rest.head? = some NUL) :
    strcpy (l ++ rest) = strcpy l := by
  induction l with
  | nil =>
    rcases h with rfl | h
    · rfl
    · cases rest with
      | nil => rfl
      | cons c cs =>
        simp only [List.head?_cons, Option.some.injEq] at h
        simp [strcpy, List.takeWhile_cons, h]
  | cons c cs ih =>
    simp only [strcpy, List.cons_append, List.takeWhile_cons] at ih ⊢
    split
    · rw [ih]
    · rfl

theorem strcpy_split (buff : List Char) :
    ∃ rest, buff = strcpy buff ++ rest ∧ (rest = [] ∨ rest.head? = some NUL) := by
  induction buff with
  | nil => exact ⟨[], rfl, Or.inl rfl⟩
  | cons c cs ih =>
    obtain ⟨rest, h1, h2⟩ := ih
    by_cases hc : c = NUL
    · exact ⟨c :: cs, by simp [strcpy, List.takeWhile_cons, hc], Or.inr (by simp [hc])⟩
    · refine ⟨rest, ?_, h2⟩
      have : strcpy (c :: cs) = c :: strcpy cs := by
        simp [strcpy, List.takeWhile_cons, hc]
      rw [this, List.cons_append, ← h1]

theorem starts_lt (l : List Char) :
    ∀ (k : Nat) (b : Bool), ∀ p ∈ starts k b l, k ≤ p ∧ p < k + l.length := by
  induction l with
  | nil => intro k b p hp; simp [starts] at hp
  | cons c cs ih =>
    intro k b p hp
    simp only [starts] at hp
    simp only [List.length_cons]
    split at hp
    · have := ih _ _ p hp; omega
    · split at hp
      · have := ih _ _ p hp; omega
      · rcases List.mem_cons.mp hp with rfl | hp
        · omega
        · have := ih _ _ p hp; omega

theorem tokens_of_strcpy (buff : List Char) : tokens_of (strcpy buff) = tokens_of buff := by
  obtain ⟨rest, hb, hrest⟩ := strcpy_split buff
  have hlen : strlen (strcpy buff) = strlen buff := by simp [strlen, strcpy_strcpy]
  have hn : strnlen (strcpy buff) COMMAND_LENGTH = strnlen buff COMMAND_LENGTH := by
    simp [strnlen, hlen]
  have hle : strnlen buff COMMAND_LENGTH ≤ (strcpy buff).length := Nat.min_le_left _ _
  generalize hs : strcpy buff = s at hb hn hle
  generalize hnn : strnlen buff COMMAND_LENGTH = n at hn hle
  have htake : buff.take n = s.take n := by
    rw [hb, List.take_append_of_le_length hle]
  have hdrop : buff.drop n = s.drop n ++ rest := by
    rw [hb, List.drop_append_of_le_length hle]
  rw [tokens_of_eq_map, tokens_of_eq_map, token_starts, token_starts, hn, hnn, htake, hdrop]
  apply List.map_congr_left
  intro p hp
  have hp2 := (starts_lt _ 0 false p hp).2
  have hp3 : p ≤ (zap (s.take n) ++ s.drop n).length := by
    simp only [zap, List.length_append, List.length_map] at hp2 ⊢
    omega
  simp only [tokstr]
  rw [← List.append_assoc, List.drop_append_of_le_length hp3, strcpy_append_of_nul _ _ hrest]

theorem returns_iff (r : CommandResult) (args : List (List Char)) (bg : Bool)
    (out err : List Char) (st : HistoryStore) :
    returns (.returned r) args bg out err st ↔
      (argv r.buff r.tokens = args ∧ r.in_background = bg ∧ r.stdout = out ∧ r.stderr = err
        ∧ r.st = st) := Iff.rfl

theorem read_command_blank (st : HistoryStore) (tokens : List (Option Nat))
    (bytes : List Char) (htok : NUM_TOKENS ≤ tokens.length)
    (h0 : strlen bytes ≠ 0) (hblank : tokens_of (strip_newline bytes) = []) :
    returns (read_command st tokens (.data bytes)) [] false [] [] st := by
  have hc : (tokenize_command (strip_newline bytes) tokens).token_count = 0 := by
    rw [token_count_tokenize_command _ _ htok, hblank]; rfl
  simp only [read_command, h0, hc, if_true, if_false, returns,
    argv_tokenize_command _ _ htok, hblank, and_self]

/-- The ways a call of `read_command` on read data can end: undefined behaviour, a
return that leaves the history untouched and hands back the empty command, or a
return that hands back the tokens of an accepted line and records that line. -/
theorem read_command_cases (st : HistoryStore) (tokens : List (Option Nat))
    (bytes : List Char) (htok : NUM_TOKENS ≤ tokens.length) :
    read_command st tokens (.data bytes) = .undefined
    ∨ (∃ err, returns (read_command st tokens (.data bytes)) [] false [] err st)
    ∨ (∃ line out, strcpy line = line ∧
        returns (read_command st tokens (.data bytes)) (strip_amp (tokens_of line))
          (ends_with_amp (tokens_of line)) out [] (add_to_history st line)) := by
  by_cases h0 : strlen bytes = 0
  · left; simp [read_command, h0]
  by_cases hblank : tokens_of (strip_newline bytes) = []
  · right; left; exact ⟨[], read_command_blank st tokens bytes htok h0 hblank⟩
  obtain ⟨first, rest, hts⟩ := List.exists_cons_of_ne_nil hblank
  have hfirst : (tokens_of (strip_newline bytes)).head? = some first := by simp [hts]
  by_cases hbang : first.head? = some '!'
  · obtain ⟨s, rfl⟩ : ∃ s, first = '!' :: s := by
      cases first with
      | nil => simp at hbang
      | cons c cs => simp only [List.head?_cons, Option.some.injEq] at hbang; exact ⟨cs, by rw [hbang]⟩
    by_cases hs : s = ['!']
    · subst hs
      by_cases hcount : st.history_count = 0
      · right; left
        exact ⟨_, read_command_bangbang_empty st tokens bytes htok hfirst hcount⟩
      · right; right
        exact ⟨_, _, strcpy_strcpy _, read_command_bangbang st tokens bytes htok hfirst hcount⟩
    · cases hnum : atoi s with
      | none => left; exact read_command_bang_undefined st tokens bytes s htok hfirst hs hnum
      | some num =>
        by_cases hwin : num ≤ 0 ∨ num > (st.history_count : Int)
            ∨ num ≤ (st.history_count : Int) - (HISTORY_DEPTH : Int)
        · right; left
          exact ⟨_, read_command_bang_invalid st tokens bytes s num htok hfirst hs hnum hwin⟩
        · right; right
          exact ⟨_, _, strcpy_strcpy _,
            read_command_bang_valid st tokens bytes s num htok hfirst hs hnum hwin⟩
  · right; right
    refine ⟨strcpy (strip_newline bytes), [], strcpy_strcpy _, ?_⟩
    rw [tokens_of_strcpy]
    exact read_command_typed st tokens bytes first htok hfirst hbang

theorem add_to_history_slot (st : HistoryStore) (line : List Char) :
    (add_to_history st line).history.getD (st.history_count % HISTORY_DEPTH) []
      = strcpy line := by
  have hlt : st.history_count % HISTORY_DEPTH < st.history.length := by
    rw [st.size_eq]; exact Nat.mod_lt _ (by decide)
  simp only [add_to_history, List.getD_eq_getElem?_getD, List.getElem?_set_self hlt,
    Option.getD_some]

/-! ## History references -/

theorem isdigit_not_space {c : Char} (hc : isdigit c = true) :
    isspace c = false ∧ c ≠ '-' ∧ c ≠ '+' := by
  simp only [isdigit, Bool.and_eq_true, decide_eq_true_eq] at hc
  have h1 : (48 : Nat) ≤ c.toNat := hc.1
  refine ⟨?_, ?_, ?_⟩
  · simp only [isspace, Bool.or_eq_false_iff, beq_eq_false_iff_ne, ne_eq]
    refine ⟨⟨⟨⟨⟨?_, ?_⟩, ?_⟩, ?_⟩, ?_⟩, ?_⟩ <;>
      (rintro rfl; revert h1; decide)
  · rintro rfl; revert h1; decide
  · rintro rfl; revert h1; decide

theorem atoi_digits (s : List Char) (hall : s.all isdigit = true) :
    atoi s = if (digits_value s : Int) ≤ INT_MAX then some (digits_value s : Int) else none := by
  have hdrop : s.dropWhile isspace = s := by
    cases s with
    | nil => rfl
    | cons c cs =>
      have hc : isdigit c = true := by
        simp only [List.all_cons, Bool.and_eq_true] at hall; exact hall.1
      simp [List.dropWhile_cons, (isdigit_not_space hc).1]
  have htake : s.takeWhile isdigit = s := by
    rw [List.takeWhile_eq_self_iff]
    exact List.all_eq_true.mp hall
  have hsign : ¬ (s.head? = some '-' ∨ s.head? = some '+') := by
    cases s with
    | nil => simp
    | cons c cs =>
      have hc : isdigit c = true := by
        simp only [List.all_cons, Bool.and_eq_true] at hall; exact hall.1
      simp [(isdigit_not_space hc).2.1, (isdigit_not_space hc).2.2]
  have hneg : (s.head? == some '-') = false := by
    simp only [beq_eq_false_iff_ne, ne_eq]
    exact fun h => hsign (Or.inl h)
  have hmin : INT_MIN ≤ (digits_value s : Int) := by
    have : (0 : Int) ≤ (digits_value s : Int) := Int.ofNat_nonneg _
    simp only [INT_MIN]; omega
  simp only [atoi, hdrop, hsign, hneg, htake, Bool.false_eq_true, if_false, hmin, true_and]

/-- C4, as stated, fails: with three recorded lines the line `!3abc`, whose suffix
`3abc` is not a decimal numeral, is accepted as a reference to entry 3; the line is
echoed, tokenized and recorded, and no error is reported. -/
theorem C4_trailing_bytes_accepted :
    (tokens_of (strip_newline "!3abc\n".toList)).head? = some "!3abc".toList
    ∧ "3abc".toList.all isdigit = false
    ∧ returns
        (read_command (record_all [['a'], ['b'], ['c']]) (List.replicate NUM_TOKENS none)
          (.data "!3abc\n".toList))
        [['c']] false "c\n".toList [] (record_all [['a'], ['b'], ['c'], ['c']])
    ∧ ¬ returns
        (read_command (record_all [['a'], ['b'], ['c']]) (List.replicate NUM_TOKENS none)
          (.data "!3abc\n".toList))
        [] false [] invalid_command_number (record_all [['a'], ['b'], ['c']]) := by
  decide

/-- C4, amended: for a line whose first token is `!` followed by a suffix `s` (the
token not being `!!`) on which `atoi` yields the `int` `num`, `read_command` accepts
the reference if `num >= 1`, `num <= history_count` and
`num > history_count - HISTORY_DEPTH`: it echoes, tokenizes and records the line of
slot `(num - 1) % HISTORY_DEPTH`. Otherwise it writes the invalid-command-number
message to standard error, hands back the empty command with the background flag
off, writes nothing to standard output and leaves the history store unchanged. The
two outcomes exclude each other, and for a suffix made of decimal digits only,
`num` is the number they denote. -/
theorem C4_reference_window (st : HistoryStore) (tokens : List (Option Nat))
    (bytes s : List Char) (num : Int) (htok : NUM_TOKENS ≤ tokens.length)
    (hfirst : (tokens_of (strip_newline bytes)).head? = some ('!' :: s))
    (hs : s ≠ ['!']) (hnum : atoi s = some num) :
    ((1 ≤ num ∧ num ≤ (st.history_count : Int)
        ∧ (st.history_count : Int) - (HISTORY_DEPTH : Int) < num) →
      returns (read_command st tokens (.data bytes))
        (strip_amp (tokens_of
          (strcpy (st.history.getD ((num - 1).toNat % HISTORY_DEPTH) []))))
        (ends_with_amp (tokens_of
          (strcpy (st.history.getD ((num - 1).toNat % HISTORY_DEPTH) []))))
        (strcpy (st.history.getD ((num - 1).toNat % HISTORY_DEPTH) []) ++ ['\n']) []
        (add_to_history st
          (strcpy (st.history.getD ((num - 1).toNat % HISTORY_DEPTH) []))))
    ∧ (¬ (1 ≤ num ∧ num ≤ (st.history_count : Int)
        ∧ (st.history_count : Int) - (HISTORY_DEPTH : Int) < num) →
      returns (read_command st tokens (.data bytes)) [] false [] invalid_command_number st)
    ∧ (returns (read_command st tokens (.data bytes)) [] false [] invalid_command_number st
        ↔ ¬ (1 ≤ num ∧ num ≤ (st.history_count : Int)
          ∧ (st.history_count : Int) - (HISTORY_DEPTH : Int) < num))
    ∧ (s.all isdigit = true → num = (digits_value s : Int)) := by
  have hvalid : (1 ≤ num ∧ num ≤ (st.history_count : Int)
        ∧ (st.history_count : Int) - (HISTORY_DEPTH : Int) < num) →
      ¬ (num ≤ 0 ∨ num > (st.history_count : Int)
        ∨ num ≤ (st.history_count : Int) - (HISTORY_DEPTH : Int)) := by
    intro h; omega
  have hinvalid : ¬ (1 ≤ num ∧ num ≤ (st.history_count : Int)
        ∧ (st.history_count : Int) - (HISTORY_DEPTH : Int) < num) →
      (num ≤ 0 ∨ num > (st.history_count : Int)
        ∨ num ≤ (st.history_count : Int) - (HISTORY_DEPTH : Int)) := by
    intro h; omega
  refine ⟨fun h => read_command_bang_valid st tokens bytes s num htok hfirst hs hnum (hvalid h),
    fun h => read_command_bang_invalid st tokens bytes s num htok hfirst hs hnum (hinvalid h),
    ⟨fun hret => ?_,
      fun h => read_command_bang_invalid st tokens bytes s num htok hfirst hs hnum (hinvalid h)⟩,
    ?_⟩
  · intro hwin
    have hacc := read_command_bang_valid st tokens bytes s num htok hfirst hs hnum (hvalid hwin)
    cases hout : read_command st tokens (.data bytes) with
    | returned r =>
      rw [hout, returns_iff] at hret hacc
      have h1 := hret.2.2.2.1
      have h2 := hacc.2.2.2.1
      rw [h2] at h1
      exact absurd h1 (by decide)
    | exited status err => rw [hout] at hret; exact hret
    | undefined => rw [hout] at hret; exact hret
  · intro hall
    have h := atoi_digits s hall
    rw [hnum] at h
    split at h
    · exact Option.some.inj h
    · exact absurd h (by simp)

/-- A use of C4, the scenario of the specification: `!3` when only two commands were
entered is rejected and nothing is recorded. -/
theorem C4_reference_window_witness :
    returns
      (read_command (record_all ["ls".toList, "pwd".toList]) (List.replicate NUM_TOKENS none)
        (.data "!3\n".toList))
      [] false [] invalid_command_number (record_all ["ls".toList, "pwd".toList]) :=
  (C4_reference_window (record_all ["ls".toList, "pwd".toList])
    (List.replicate NUM_TOKENS none) "!3\n".toList ['3'] 3
    (by simp) (by decide) (by decide) (by decide)).2.1 (by decide)

/-- C5: in a history built by appending `lines` to the empty store, an accepted
reference `!n` resolves to the `n`-th line ever appended: that line followed by a
newline is echoed to standard output, the returned tokens are the tokens of that
line without a final `&`, nothing is written to standard error, and the store
afterwards is the one obtained by appending that line once more. -/
theorem C5_reference_resolves (lines : List (List Char)) (tokens : List (Option Nat))
    (bytes s : List Char) (num : Int) (hlines : ∀ l ∈ lines, is_line l)
    (htok : NUM_TOKENS ≤ tokens.length)
    (hfirst : (tokens_of (strip_newline bytes)).head? = some ('!' :: s))
    (hs : s ≠ ['!']) (hnum : atoi s = some num)
    (hwin : 1 ≤ num ∧ num ≤ (lines.length : Int)
      ∧ (lines.length : Int) - (HISTORY_DEPTH : Int) < num) :
    ∃ line, lines[(num - 1).toNat]? = some line ∧
      returns (read_command (record_all lines) tokens (.data bytes))
        (strip_amp (tokens_of line)) (ends_with_amp (tokens_of line)) (line ++ ['\n']) []
        (record_all (lines ++ [line])) := by
  have hi : (num - 1).toNat < lines.length := by omega
  have hlo : lines.length - HISTORY_DEPTH ≤ (num - 1).toNat := by
    simp only [HISTORY_DEPTH] at hwin ⊢; omega
  refine ⟨lines[(num - 1).toNat], List.getElem?_eq_getElem hi, ?_⟩
  have hwin2 : ¬ (num ≤ 0 ∨ num > ((record_all lines).history_count : Int)
      ∨ num ≤ ((record_all lines).history_count : Int) - (HISTORY_DEPTH : Int)) := by
    rw [record_all_count]; omega
  have h := read_command_bang_valid (record_all lines) tokens bytes s num htok hfirst hs hnum
    hwin2
  rw [record_all_getD lines (fun l hl => (hlines l hl).1) _ hlo hi,
    strcpy_eq_self (hlines _ (List.getElem_mem hi)).1, ← record_all_snoc] at h
  exact h

/-- A use of C5: twelve one-letter lines `a` .. `l`; `!3` resolves to `c`, the third
line, which sits in slot 2 of the ring. -/
theorem C5_reference_resolves_witness :
    ∃ line, ((List.range 12).map (fun i => [Char.ofNat (97 + i)]))[(3 - 1 : Int).toNat]?
        = some line ∧
      returns
        (read_command (record_all ((List.range 12).map (fun i => [Char.ofNat (97 + i)])))
          (List.replicate NUM_TOKENS none) (.data "!3\n".toList))
        (strip_amp (tokens_of line)) (ends_with_amp (tokens_of line)) (line ++ ['\n']) []
        (record_all ((List.range 12).map (fun i => [Char.ofNat (97 + i)]) ++ [line])) :=
  C5_reference_resolves ((List.range 12).map (fun i => [Char.ofNat (97 + i)]))
    (List.replicate NUM_TOKENS none) "!3\n".toList ['3'] 3
    (by decide) (by simp) (by decide) (by decide) (by decide) (by decide)

/-- C6, as stated, fails: after the single line `ls &`, the line `!!` hands back the
one token `ls` with the background flag set, while the tokens of `ls &` are `ls`
and `&`. -/
theorem C6_bangbang_drops_ampersand :
    returns
      (read_command (record_all ["ls &".toList]) (List.replicate NUM_TOKENS none)
        (.data "!!\n".toList))
      ["ls".toList] true "ls &\n".toList [] (record_all ["ls &".toList, "ls &".toList])
    ∧ tokens_of "ls &".toList = ["ls".toList, "&".toList]
    ∧ ["ls".toList] ≠ tokens_of "ls &".toList := by
  decide

/-- The `!!` expansion in a history built by appending `lines` to the empty store: the
last appended line is echoed, tokenized and appended once more. -/
theorem bangbang_after_appends (lines : List (List Char)) (tokens : List (Option Nat))
    (bytes line : List Char) (hlines : ∀ l ∈ lines, is_line l)
    (htok : NUM_TOKENS ≤ tokens.length)
    (hfirst : (tokens_of (strip_newline bytes)).head? = some ['!', '!'])
    (hlast : lines.getLast? = some line) :
    returns (read_command (record_all lines) tokens (.data bytes))
      (strip_amp (tokens_of line)) (ends_with_amp (tokens_of line)) (line ++ ['\n']) []
      (record_all (lines ++ [line]))
    ∧ (record_all (lines ++ [line])).history_count = (record_all lines).history_count + 1
    ∧ (record_all (lines ++ [line])).history[lines.length % HISTORY_DEPTH]? = some line
    ∧ (record_all (lines ++ [line])).history[(lines.length - 1) % HISTORY_DEPTH]?
        = some line := by
  have hne : lines ≠ [] := by rintro rfl; simp at hlast
  have hpos : 0 < lines.length := List.length_pos.mpr hne
  have hi : lines.length - 1 < lines.length := by omega
  have hget : lines[lines.length - 1] = line := by
    rw [List.getLast?_eq_getElem?, List.getElem?_eq_getElem hi] at hlast
    exact Option.some.inj hlast
  have hmem : line ∈ lines := by rw [← hget]; exact List.getElem_mem hi
  have hdepth : HISTORY_DEPTH = 10 := rfl
  have hcount : (record_all lines).history_count ≠ 0 := by rw [record_all_count]; omega
  have h := read_command_bangbang (record_all lines) tokens bytes htok hfirst hcount
  rw [record_all_count, record_all_getD lines (fun l hl => (hlines l hl).1) _ (by omega) hi,
    hget, strcpy_eq_self (hlines _ hmem).1, ← record_all_snoc] at h
  have hlines2 : ∀ l ∈ lines ++ [line], NUL ∉ l := by
    intro l hl
    rcases List.mem_append.mp hl with hl | hl
    · exact (hlines l hl).1
    · rw [List.mem_singleton.mp hl]; exact (hlines _ hmem).1
  have hslots := (record_all_slots (lines ++ [line])).2
  simp only [List.length_append, List.length_singleton] at hslots
  refine ⟨h, by simp [record_all_count], ?_, ?_⟩
  · rw [hslots lines.length (by omega) (by omega)]
    simp [strcpy_eq_self (hlines _ hmem).1]
  · rw [hslots (lines.length - 1) (by omega) (by omega),
      List.getElem?_append_left hi, List.getElem?_eq_getElem hi, hget]
    simp [strcpy_eq_self (hlines _ hmem).1]

/-- C6, amended: for every history with `history_count > 0`, a line whose first token
is exactly `!!` resolves to the most recently recorded line `L`, the C string of slot
`(history_count - 1) % HISTORY_DEPTH`: `L` followed by a newline is echoed to standard
output, the returned tokens are the tokens of `L` without a final `&` (which sets the
background flag instead), `history_count` grows by exactly one, the new last entry
is `L`, and so the last two logical entries both read `L`. -/
theorem C6_bangbang_repeats (st : HistoryStore) (tokens : List (Option Nat))
    (bytes line : List Char) (htok : NUM_TOKENS ≤ tokens.length)
    (hfirst : (tokens_of (strip_newline bytes)).head? = some ['!', '!'])
    (hcount : st.history_count ≠ 0)
    (hline : line = strcpy (st.history.getD ((st.history_count - 1) % HISTORY_DEPTH) [])) :
    returns (read_command st tokens (.data bytes))
      (strip_amp (tokens_of line)) (ends_with_amp (tokens_of line)) (line ++ ['\n']) []
      (add_to_history st line)
    ∧ (add_to_history st line).history_count = st.history_count + 1
    ∧ (add_to_history st line).history.getD (st.history_count % HISTORY_DEPTH) [] = line
    ∧ strcpy ((add_to_history st line).history.getD
        ((st.history_count - 1) % HISTORY_DEPTH) []) = line := by
  subst hline
  refine ⟨read_command_bangbang st tokens bytes htok hfirst hcount, rfl, ?_, ?_⟩
  · rw [add_to_history_slot, strcpy_strcpy]
  · have hne : st.history_count % HISTORY_DEPTH ≠ (st.history_count - 1) % HISTORY_DEPTH := by
      simp only [HISTORY_DEPTH]; omega
    simp only [add_to_history, List.getD_eq_getElem?_getD, List.getElem?_set_ne hne]

/-- A use of C6, the scenario of the specification: `echo hi`, then `!!`; the line
`echo hi` is echoed, its two tokens are handed back and the history holds two
entries that both read `echo hi`. -/
theorem C6_bangbang_repeats_witness :
    returns
      (read_command (record_all ["echo hi".toList]) (List.replicate NUM_TOKENS none)
        (.data "!!\n".toList))
      ["echo".toList, "hi".toList] false "echo hi\n".toList []
      (record_all ["echo hi".toList, "echo hi".toList])
    ∧ (record_all ["echo hi".toList, "echo hi".toList]).history_count = 2 :=
  ⟨(C6_bangbang_repeats (record_all ["echo hi".toList]) (List.replicate NUM_TOKENS none)
    "!!\n".toList "echo hi".toList (by simp) (by decide) (by decide) (by decide)).1,
    by decide⟩

/-- C7: when `history_count == 0`, a line whose first token is exactly `!!` makes
`read_command` write the no-previous-command message to standard error and nothing
to standard output, hand back the empty command with the background flag off, and
leave the history store, and so `history_count`, unchanged. -/
theorem C7_bangbang_empty_history (st : HistoryStore) (tokens : List (Option Nat))
    (bytes : List Char) (htok : NUM_TOKENS ≤ tokens.length)
    (hfirst : (tokens_of (strip_newline bytes)).head? = some ['!', '!'])
    (hcount : st.history_count = 0) :
    returns (read_command st tokens (.data bytes)) [] false [] no_previous_command st
    ∧ no_previous_command = "Error: No previous command found\n".toList :=
  ⟨read_command_bangbang_empty st tokens bytes htok hfirst hcount, rfl⟩

/-- A use of C7: `!!` typed as the first line of a session. -/
theorem C7_bangbang_empty_history_witness :
    returns
      (read_command empty_history (List.replicate NUM_TOKENS none) (.data "!!\n".toList))
      [] false [] no_previous_command empty_history :=
  (C7_bangbang_empty_history empty_history (List.replicate NUM_TOKENS none) "!!\n".toList
    (by simp) (by decide) (by decide)).1

/-! ## The tokenizer and the maximal runs -/

theorem splitOnP_no_delim (l : List Char) :
    ∀ r ∈ l.splitOnP is_delim, ∀ c ∈ r, is_delim c = false := by
  induction l with
  | nil => intro r hr c hc; simp at hr; subst hr; simp at hc
  | cons x xs ih =>
    intro r hr c hc
    rw [List.splitOnP_cons] at hr
    by_cases hd : is_delim x = true
    · simp only [hd, if_true, List.mem_cons] at hr
      rcases hr with rfl | hr
      · simp at hc
      · exact ih r hr c hc
    · obtain ⟨t, ht⟩ := splitOnP_head xs
      simp only [hd, Bool.false_eq_true, if_false, ht, List.modifyHead, List.mem_cons] at hr
      rcases hr with rfl | hr
      · rcases List.mem_cons.mp hc with rfl | hc
        · simpa using hd
        · exact ih _ (by rw [ht]; exact List.mem_cons_self _ _) c hc
      · exact ih r (by rw [ht]; exact List.mem_cons_of_mem _ hr) c hc

theorem runs_tokens (l : List Char) :
    ∀ tok ∈ runs l, tok ≠ [] ∧ ∀ c ∈ tok, is_delim c = false := by
  intro tok htok
  simp only [runs, List.mem_filter, Bool.not_eq_true', List.isEmpty_eq_false] at htok
  exact ⟨htok.2, splitOnP_no_delim l tok htok.1⟩

theorem runs_of_all_delim (l : List Char) (h : ∀ c ∈ l, is_delim c = true) : runs l = [] := by
  induction l with
  | nil => simp [runs]
  | cons x xs ih =>
    have hx : is_delim x = true := h x (List.mem_cons_self _ _)
    have := ih (fun c hc => h c (List.mem_cons_of_mem _ hc))
    simp only [runs, List.splitOnP_cons, hx, if_true] at this ⊢
    simpa using this

theorem token_at_index (B : List Char) (ps : List Nat) (rest : List (Option Nat)) (i : Nat)
    (hi : i < ps.length) :
    (ps.map (tokstr B))[i]? = some (token_at B (ps.map some ++ none :: rest) i) := by
  have hget : (ps.map some ++ none :: rest)[i]? = some (some ps[i]) := by
    rw [List.getElem?_append_left (by simpa using hi)]
    simp [List.getElem?_eq_getElem hi]
  simp only [token_at, List.getD_eq_getElem?_getD, hget, Option.getD_some]
  simp [List.getElem?_eq_getElem hi]

/-- C8: for a buffer without terminator byte and shorter than `COMMAND_LENGTH`, and
a token array of at least `NUM_TOKENS` entries, `tokenize_command` returns exactly
the maximal runs of bytes other than space, tab and newline, from left to right: the
count is the number of runs, `tokens[i]` points to the `i`-th run, every token is
non-empty and free of delimiters, `tokens[count]` is the null pointer, and a buffer
of delimiters only (the empty one included) yields the count 0. -/
theorem C8_tokenize_command_runs (buff : List Char) (tokens : List (Option Nat))
    (hnul : NUL ∉ buff) (hlen : buff.length < COMMAND_LENGTH)
    (htok : NUM_TOKENS ≤ tokens.length) :
    (tokenize_command buff tokens).token_count = (runs buff).length
    ∧ argv (tokenize_command buff tokens).buff (tokenize_command buff tokens).tokens
        = runs buff
    ∧ (∀ i, i < (runs buff).length →
        (runs buff)[i]? = some (token_at (tokenize_command buff tokens).buff
          (tokenize_command buff tokens).tokens i))
    ∧ (∀ tok ∈ argv (tokenize_command buff tokens).buff (tokenize_command buff tokens).tokens,
        tok ≠ [] ∧ ∀ c ∈ tok, c ≠ ' ' ∧ c ≠ '\t' ∧ c ≠ '\n')
    ∧ (tokenize_command buff tokens).tokens[(tokenize_command buff tokens).token_count]?
        = some none
    ∧ ((∀ c ∈ buff, c = ' ' ∨ c = '\t' ∨ c = '\n') →
        (tokenize_command buff tokens).token_count = 0) := by
  have hruns := tokens_of_eq_runs buff hnul (Nat.le_of_lt hlen)
  have hargv := argv_tokenize_command buff tokens htok
  have hcount := token_count_tokenize_command buff tokens htok
  rw [hruns] at hargv hcount
  obtain ⟨B, ps, rest, ht, hts, -⟩ := tokenize_view buff tokens htok
  rw [hruns] at hts
  refine ⟨hcount, hargv, ?_, ?_, ?_, ?_⟩
  · intro i hi
    rw [ht, hts]
    exact token_at_index B ps rest i (by simpa [hts] using hi)
  · intro tok htok2
    rw [hargv] at htok2
    obtain ⟨h1, h2⟩ := runs_tokens buff tok htok2
    refine ⟨h1, fun c hc => ?_⟩
    have := h2 c hc
    simpa [is_delim, not_or, and_assoc] using this
  · rw [ht]
    simp only
    rw [List.getElem?_append_right (by simp)]
    simp
  · intro hall
    rw [hcount, runs_of_all_delim buff (fun c hc => (is_delim_iff c).mp (hall c hc))]
    rfl

/-- A use of C8: leading, repeated and trailing delimiters around three words. -/
theorem C8_tokenize_command_runs_witness :
    argv (tokenize_command "  ls\t-l \n /tmp ".toList (List.replicate NUM_TOKENS none)).buff
        (tokenize_command "  ls\t-l \n /tmp ".toList (List.replicate NUM_TOKENS none)).tokens
      = runs "  ls\t-l \n /tmp ".toList
    ∧ runs "  ls\t-l \n /tmp ".toList = ["ls".toList, "-l".toList, "/tmp".toList] :=
  ⟨(C8_tokenize_command_runs "  ls\t-l \n /tmp ".toList (List.replicate NUM_TOKENS none)
    (by decide) (by decide) (by simp)).2.1, by decide⟩

/-! ## Round trip of words joined by single spaces -/

theorem intercalate_cons_cons (w v : List Char) (vs : List (List Char)) :
    List.intercalate [' '] (w :: v :: vs) = w ++ ' ' :: List.intercalate [' '] (v :: vs) := by
  simp [List.intercalate, List.intersperse]

theorem mem_intercalate (words : List (List Char)) (c : Char)
    (h : c ∈ List.intercalate [' '] words) : c = ' ' ∨ ∃ w ∈ words, c ∈ w := by
  induction words with
  | nil => simp [List.intercalate] at h
  | cons w ws ih =>
    cases ws with
    | nil =>
      simp only [List.intercalate, List.intersperse_single, List.flatten_cons,
        List.flatten_nil, List.append_nil] at h
      exact Or.inr ⟨w, List.mem_cons_self _ _, h⟩
    | cons v vs =>
      rw [intercalate_cons_cons, List.mem_append, List.mem_cons] at h
      rcases h with h | h | h
      · exact Or.inr ⟨w, List.mem_cons_self _ _, h⟩
      · exact Or.inl h
      · rcases ih h with h | ⟨x, hx, hc⟩
        · exact Or.inl h
        · exact Or.inr ⟨x, List.mem_cons_of_mem _ hx, hc⟩

theorem runs_intercalate (words : List (List Char))
    (hwords : ∀ w ∈ words, w ≠ [] ∧ ∀ c ∈ w, is_delim c = false) :
    runs (List.intercalate [' '] words) = words := by
  induction words with
  | nil => simp [runs, List.intercalate]
  | cons w ws ih =>
    have hw := hwords w (List.mem_cons_self _ _)
    have hws := ih (fun x hx => hwords x (List.mem_cons_of_mem _ hx))
    have hnd : ∀ x ∈ w, ¬ (is_delim x = true) := fun x hx => by simp [hw.2 x hx]
    cases ws with
    | nil =>
      simp only [List.intercalate, List.intersperse_single, List.flatten_cons,
        List.flatten_nil, List.append_nil, runs]
      rw [List.splitOnP_eq_single is_delim w hnd]
      simp [hw.1]
    | cons v vs =>
      rw [intercalate_cons_cons]
      simp only [runs] at hws ⊢
      rw [List.splitOnP_first is_delim w hnd ' ' (by decide)]
      simp only [List.filter_cons, hws]
      simp [hw.1]

/-- C9: for every list of words, each a non-empty C string free of space, tab and
newline, the words joined by single spaces (the joined line shorter than
`COMMAND_LENGTH`) tokenize to exactly that list of words, so the token count equals
the word count. -/
theorem C9_tokenize_round_trip (words : List (List Char)) (tokens : List (Option Nat))
    (hwords : ∀ w ∈ words, w ≠ [] ∧ NUL ∉ w ∧ ∀ c ∈ w, c ≠ ' ' ∧ c ≠ '\t' ∧ c ≠ '\n')
    (hlen : (List.intercalate [' '] words).length < COMMAND_LENGTH)
    (htok : NUM_TOKENS ≤ tokens.length) :
    argv (tokenize_command (List.intercalate [' '] words) tokens).buff
        (tokenize_command (List.intercalate [' '] words) tokens).tokens = words
    ∧ (tokenize_command (List.intercalate [' '] words) tokens).token_count = words.length := by
  have hnul : NUL ∉ List.intercalate [' '] words := by
    intro hmem
    rcases mem_intercalate words NUL hmem with h | ⟨w, hw, hin⟩
    · revert h; decide
    · exact (hwords w hw).2.1 hin
  have hruns := tokens_of_eq_runs _ hnul (Nat.le_of_lt hlen)
  have hrt := runs_intercalate words (fun w hw =>
    ⟨(hwords w hw).1, fun c hc => by
      have := (hwords w hw).2.2 c hc
      simp [is_delim, this.1, this.2.1, this.2.2]⟩)
  refine ⟨?_, ?_⟩
  · rw [argv_tokenize_command _ _ htok, hruns, hrt]
  · rw [token_count_tokenize_command _ _ htok, hruns, hrt]

/-- A use of C9: the three words `cp`, `-r` and `a/b`. -/
theorem C9_tokenize_round_trip_witness :
    argv (tokenize_command (List.intercalate [' '] ["cp".toList, "-r".toList, "a/b".toList])
          (List.replicate NUM_TOKENS none)).buff
        (tokenize_command (List.intercalate [' '] ["cp".toList, "-r".toList, "a/b".toList])
          (List.replicate NUM_TOKENS none)).tokens
      = ["cp".toList, "-r".toList, "a/b".toList]
    ∧ (tokenize_command (List.intercalate [' '] ["cp".toList, "-r".toList, "a/b".toList])
        (List.replicate NUM_TOKENS none)).token_count
      = ["cp".toList, "-r".toList, "a/b".toList].length :=
  C9_tokenize_round_trip ["cp".toList, "-r".toList, "a/b".toList]
    (List.replicate NUM_TOKENS none) (by decide) (by decide) (by simp)

/-! ## Background detection -/

/-- C10: whenever `read_command` returns having recorded a line (so the line, typed
or resolved by history expansion, was accepted), with `t1..tk` the tokens of the
recorded line: the background flag is set if and only if the last token is exactly
`&`; when it is set the returned sequence is `t1..t(k-1)`, and otherwise it is
`t1..tk` unchanged. -/
theorem C10_background_flag (st : HistoryStore) (tokens : List (Option Nat))
    (bytes : List Char) (args : List (List Char)) (bg : Bool) (out err : List Char)
    (st' : HistoryStore) (htok : NUM_TOKENS ≤ tokens.length)
    (hret : returns (read_command st tokens (.data bytes)) args bg out err st')
    (hrec : st'.history_count = st.history_count + 1) :
    (bg = true ↔
      (tokens_of (st'.history.getD (st.history_count % HISTORY_DEPTH) [])).getLast?
        = some ['&'])
    ∧ (bg = true →
      args = (tokens_of (st'.history.getD (st.history_count % HISTORY_DEPTH) [])).dropLast)
    ∧ (bg = false →
      args = tokens_of (st'.history.getD (st.history_count % HISTORY_DEPTH) [])) := by
  rcases read_command_cases st tokens bytes htok with hu | ⟨e, hx⟩ | ⟨line, o, hline, hx⟩
  · rw [hu] at hret; exact absurd hret id
  · cases hout : read_command st tokens (.data bytes) with
    | returned r =>
      rw [hout, returns_iff] at hret hx
      have h1 := hret.2.2.2.2
      rw [hx.2.2.2.2] at h1
      rw [← h1] at hrec
      omega
    | exited status e2 => rw [hout] at hret; exact absurd hret id
    | undefined => rw [hout] at hret; exact absurd hret id
  · cases hout : read_command st tokens (.data bytes) with
    | returned r =>
      rw [hout, returns_iff] at hret hx
      obtain ⟨ha, hb, -, -, hst⟩ := hret
      obtain ⟨ha2, hb2, -, -, hst2⟩ := hx
      have hst3 : st' = add_to_history st line := by rw [← hst, hst2]
      have hslot : st'.history.getD (st.history_count % HISTORY_DEPTH) [] = line := by
        rw [hst3, add_to_history_slot, hline]
      have hargs : args = strip_amp (tokens_of line) := by rw [← ha, ha2]
      have hbg : bg = ends_with_amp (tokens_of line) := by rw [← hb, hb2]
      rw [hslot, hargs, hbg]
      refine ⟨by simp [ends_with_amp], ?_, ?_⟩
      · intro h; simp [strip_amp, h]
      · intro h; simp [strip_amp, h]
    | exited status e2 => rw [hout] at hret; exact absurd hret id
    | undefined => rw [hout] at hret; exact absurd hret id

/-- A use of C10: the typed line `sleep 5 &` sets the flag and loses its last token,
while the recorded line keeps the `&`. -/
theorem C10_background_flag_witness :
    (true = true ↔
      (tokens_of ((record_all ["sleep 5 &".toList]).history.getD
        (empty_history.history_count % HISTORY_DEPTH) [])).getLast? = some ['&'])
    ∧ (true = true → ["sleep".toList, "5".toList] =
      (tokens_of ((record_all ["sleep 5 &".toList]).history.getD
        (empty_history.history_count % HISTORY_DEPTH) [])).dropLast)
    ∧ (true = false → ["sleep".toList, "5".toList] =
      tokens_of ((record_all ["sleep 5 &".toList]).history.getD
        (empty_history.history_count % HISTORY_DEPTH) [])) :=
  C10_background_flag empty_history (List.replicate NUM_TOKENS none) "sleep 5 &\n".toList
    ["sleep".toList, "5".toList] true [] [] (record_all ["sleep 5 &".toList])
    (by simp) (by decide) (by decide)

/-- Tokens that merely contain `&`, and an `&` that is not the last token, neither
set the background flag nor are removed. -/
theorem background_flag_needs_final_amp :
    returns
      (read_command empty_history (List.replicate NUM_TOKENS none)
        (.data "foo& & bar&\n".toList))
      ["foo&".toList, "&".toList, "bar&".toList] false [] []
      (record_all ["foo& & bar&".toList]) := by
  decide

/-! ## The bound on the token array -/

theorem strnlen_le_length (buff : List Char) (n : Nat) : strnlen buff n ≤ buff.length :=
  le_trans (Nat.min_le_left _ _) (List.takeWhile_sublist _).length_le

theorem token_count_eq_starts (buff : List Char) (tokens : List (Option Nat)) :
    (tokenize_command buff tokens).token_count = (token_starts buff).length := by
  have hnl := strnlen_le_length buff COMMAND_LENGTH
  have hloop := tokenize_loop (buff.take (strnlen buff COMMAND_LENGTH)) []
    (buff.drop (strnlen buff COMMAND_LENGTH)) tokens 0 false
  simp only [List.length_nil, List.nil_append, List.take_append_drop, List.length_take,
    Nat.min_eq_left hnl, Nat.zero_add] at hloop
  simp only [tokenize_command, List.range_eq_range', token_starts]
  exact hloop.2.2

theorem starts_dense (n : Nat) :
    ∀ k, (starts k false ((List.replicate n ['a', ' ']).flatten ++ ['a'])).length = n + 1 := by
  induction n with
  | zero => intro k; simp [starts, is_delim]
  | succ n ih =>
    intro k
    have h := ih (k + 1 + 1)
    simp only [List.replicate_succ, List.flatten_cons, List.cons_append, List.nil_append,
      starts, is_delim]
    simpa using h

theorem dense_buffer_mem (c : Char) (h : c ∈ dense_buffer) : c = 'a' ∨ c = ' ' := by
  simp only [dense_buffer, List.mem_append, List.mem_flatten, List.mem_replicate,
    List.mem_singleton] at h
  rcases h with ⟨l, ⟨-, rfl⟩, hc⟩ | h
  · simpa using hc
  · exact Or.inl h

theorem dense_length (n : Nat) :
    ((List.replicate n ['a', ' ']).flatten ++ ['a']).length = 2 * n + 1 := by
  induction n with
  | zero => rfl
  | succ n ih =>
    simp only [List.replicate_succ, List.flatten_cons, List.cons_append, List.nil_append,
      List.length_cons] at ih ⊢
    omega

theorem dense_buffer_length : dense_buffer.length = COMMAND_LENGTH - 1 := by
  rw [dense_buffer, dense_length]
  decide

theorem dense_buffer_count (tokens : List (Option Nat)) :
    (tokenize_command dense_buffer tokens).token_count = COMMAND_LENGTH / 2 := by
  have hnul : NUL ∉ dense_buffer := by
    intro h
    rcases dense_buffer_mem NUL h with h | h <;> revert h <;> decide
  have hlen : dense_buffer.length ≤ COMMAND_LENGTH := by
    rw [dense_buffer_length]; exact Nat.sub_le _ _
  rw [token_count_eq_starts, token_starts, strnlen_eq_length hnul hlen, List.take_length]
  exact starts_dense _ 0

/-- C16: for every buffer of at most `COMMAND_LENGTH - 1` bytes `tokenize_command`
returns a count of at most `COMMAND_LENGTH / 2`, so the indices `0 .. count` it writes
in `tokens[]` are below `NUM_TOKENS`: in an array of `NUM_TOKENS` entries the entries
before `count` hold the token pointers, the entry `count` holds the null pointer and
the array keeps its size. The bound is attained by the 1023-byte buffer
`a a ... a`. -/
theorem C16_token_array_bound (buff : List Char) (tokens : List (Option Nat))
    (hlen : buff.length ≤ COMMAND_LENGTH - 1) :
    (tokenize_command buff tokens).token_count ≤ COMMAND_LENGTH / 2
    ∧ (tokenize_command buff tokens).token_count < NUM_TOKENS
    ∧ (tokens.length = NUM_TOKENS →
        (tokenize_command buff tokens).tokens.length = NUM_TOKENS
        ∧ (tokenize_command buff tokens).tokens[(tokenize_command buff tokens).token_count]?
            = some none
        ∧ ∀ i, i < (tokenize_command buff tokens).token_count →
            ∃ p, (tokenize_command buff tokens).tokens[i]? = some (some p))
    ∧ dense_buffer.length = COMMAND_LENGTH - 1
    ∧ (tokenize_command dense_buffer tokens).token_count = COMMAND_LENGTH / 2 := by
  have hcount : (tokenize_command buff tokens).token_count ≤ COMMAND_LENGTH / 2 := by
    rw [token_count_eq_starts, token_starts]
    have h1 := starts_length_le (buff.take (strnlen buff COMMAND_LENGTH)) 0 false
    have h2 := strnlen_le_length buff COMMAND_LENGTH
    simp only [List.length_take, Nat.min_eq_left h2] at h1
    generalize strnlen buff COMMAND_LENGTH = n at h1 h2
    have hC : COMMAND_LENGTH = 1024 := rfl
    rw [hC] at hlen ⊢
    simp at h1
    omega
  refine ⟨hcount, ?_, ?_, dense_buffer_length, dense_buffer_count tokens⟩
  · have hC : COMMAND_LENGTH = 1024 := rfl
    simp only [NUM_TOKENS]; omega
  · intro htok
    obtain ⟨hlt, heq⟩ := tokenize_command_eq buff tokens (le_of_eq htok.symm)
    rw [heq]
    simp only
    refine ⟨?_, ?_, ?_⟩
    · simp only [List.length_append, List.length_map, List.length_cons, List.length_drop]
      omega
    · rw [List.getElem?_append_right (by simp)]
      simp
    · intro i hi
      refine ⟨(token_starts buff)[i], ?_⟩
      rw [List.getElem?_append_left (by simpa using hi)]
      simp [List.getElem?_eq_getElem hi]

/-- A use of C16: the buffer `ls -l` has two tokens. -/
theorem C16_token_array_bound_witness :
    (tokenize_command "ls -l".toList (List.replicate NUM_TOKENS none)).token_count
      ≤ COMMAND_LENGTH / 2
    ∧ (tokenize_command "ls -l".toList (List.replicate NUM_TOKENS none)).token_count = 2 :=
  ⟨(C16_token_array_bound "ls -l".toList (List.replicate NUM_TOKENS none) (by decide)).1,
    by decide⟩

/-! ## What a call records -/

theorem strlen_eq_length {l : List Char} (h : NUL ∉ l) : strlen l = l.length := by
  rw [strlen, strcpy_eq_self h]

theorem strcpy_strip_newline (bytes : List Char) (hnul : NUL ∉ bytes) :
    strcpy (strip_newline bytes) = typed_line bytes := by
  rcases List.eq_nil_or_concat bytes with rfl | ⟨l, c, rfl⟩
  · simp [strip_newline, typed_line, strlen, strcpy, NUL]
  · rw [List.concat_eq_append] at hnul ⊢
    have hl : NUL ∉ l := fun h => hnul (List.mem_append_left _ h)
    have hget : (l ++ [c]).getD (strlen (l ++ [c]) - 1) NUL = c := by
      rw [strlen_eq_length hnul, List.getD_eq_getElem?_getD]
      simp
    have hset : (l ++ [c]).set (strlen (l ++ [c]) - 1) NUL = l ++ [NUL] := by
      rw [strlen_eq_length hnul]
      simp only [List.length_append, List.length_singleton, Nat.add_sub_cancel]
      rw [List.set_append_right _ _ (le_refl _)]
      simp
    simp only [strip_newline, hget, hset, typed_line, List.getLast?_concat,
      List.dropLast_concat, Option.some.injEq]
    by_cases hc : c = '\n'
    · rw [if_pos hc, if_pos hc, strcpy_append_of_nul l [NUL] (Or.inr rfl), strcpy_eq_self hl]
    · rw [if_neg hc, if_neg hc, strcpy_eq_self hnul]

theorem add_to_history_count (st : HistoryStore) (line : List Char) :
    (add_to_history st line).history_count = st.history_count + 1 := rfl

theorem returns_exists {o : Outcome} {args : List (List Char)} {bg : Bool}
    {out err : List Char} {st : HistoryStore} (h : returns o args bg out err st) :
    ∃ r, o = .returned r ∧ argv r.buff r.tokens = args ∧ r.in_background = bg
      ∧ r.stdout = out ∧ r.stderr = err ∧ r.st = st := by
  cases o with
  | returned r => exact ⟨r, rfl, h⟩
  | exited status e => exact absurd h id
  | undefined => exact absurd h id

/-- C11: a call of `read_command` on a line that was read leaves the history store
as it was or appends exactly one entry. The store is unchanged for a line without
tokens, for `!!` on an empty history and for an `!n` outside the window. Otherwise
`history_count` grows by one: for a line (a text without terminator byte) whose
first token does not begin with `!`, the appended entry is the input without a
single trailing newline, byte for byte; for an accepted `!!` or `!n` it is the
resolved line, the one echoed to standard output. -/
theorem C11_history_frame (st : HistoryStore) (tokens : List (Option Nat))
    (bytes : List Char) (htok : NUM_TOKENS ≤ tokens.length) :
    (∀ r, read_command st tokens (.data bytes) = .returned r →
      r.st = st ∨ (r.st.history_count = st.history_count + 1
        ∧ ∃ line, r.st = add_to_history st line))
    ∧ (strlen bytes ≠ 0 → tokens_of (strip_newline bytes) = [] →
        returns (read_command st tokens (.data bytes)) [] false [] [] st)
    ∧ ((tokens_of (strip_newline bytes)).head? = some ['!', '!'] → st.history_count = 0 →
        returns (read_command st tokens (.data bytes)) [] false [] no_previous_command st)
    ∧ (∀ s num, (tokens_of (strip_newline bytes)).head? = some ('!' :: s) → s ≠ ['!'] →
        atoi s = some num →
        (num ≤ 0 ∨ num > (st.history_count : Int)
          ∨ num ≤ (st.history_count : Int) - (HISTORY_DEPTH : Int)) →
        returns (read_command st tokens (.data bytes)) [] false [] invalid_command_number st)
    ∧ (∀ first, (tokens_of (strip_newline bytes)).head? = some first →
        first.head? ≠ some '!' → NUL ∉ bytes →
        returns (read_command st tokens (.data bytes))
          (strip_amp (tokens_of (strip_newline bytes)))
          (ends_with_amp (tokens_of (strip_newline bytes))) [] []
          (add_to_history st (typed_line bytes))
        ∧ (add_to_history st (typed_line bytes)).history_count = st.history_count + 1
        ∧ (add_to_history st (typed_line bytes)).history.getD
            (st.history_count % HISTORY_DEPTH) [] = typed_line bytes)
    ∧ ((tokens_of (strip_newline bytes)).head? = some ['!', '!'] → st.history_count ≠ 0 →
        ∃ line, returns (read_command st tokens (.data bytes))
            (strip_amp (tokens_of line)) (ends_with_amp (tokens_of line)) (line ++ ['\n']) []
            (add_to_history st line)
          ∧ (add_to_history st line).history_count = st.history_count + 1
          ∧ (add_to_history st line).history.getD (st.history_count % HISTORY_DEPTH) []
              = line)
    ∧ (∀ s num, (tokens_of (strip_newline bytes)).head? = some ('!' :: s) → s ≠ ['!'] →
        atoi s = some num →
        ¬ (num ≤ 0 ∨ num > (st.history_count : Int)
          ∨ num ≤ (st.history_count : Int) - (HISTORY_DEPTH : Int)) →
        ∃ line, returns (read_command st tokens (.data bytes))
            (strip_amp (tokens_of line)) (ends_with_amp (tokens_of line)) (line ++ ['\n']) []
            (add_to_history st line)
          ∧ (add_to_history st line).history_count = st.history_count + 1
          ∧ (add_to_history st line).history.getD (st.history_count % HISTORY_DEPTH) []
              = line) := by
  refine ⟨?_, ?_, ?_, ?_, ?_, ?_, ?_⟩
  · intro r hr
    rcases read_command_cases st tokens bytes htok with hu | ⟨e, hx⟩ | ⟨line, o, -, hx⟩
    · rw [hu] at hr; cases hr
    · rw [hr, returns_iff] at hx
      exact Or.inl hx.2.2.2.2
    · rw [hr, returns_iff] at hx
      exact Or.inr ⟨by rw [hx.2.2.2.2]; rfl, line, hx.2.2.2.2⟩
  · exact fun h0 hblank => read_command_blank st tokens bytes htok h0 hblank
  · exact fun hfirst hcount => read_command_bangbang_empty st tokens bytes htok hfirst hcount
  · exact fun s num hfirst hs hnum hwin =>
      read_command_bang_invalid st tokens bytes s num htok hfirst hs hnum hwin
  · intro first hfirst hbang hnul
    have h := read_command_typed st tokens bytes first htok hfirst hbang
    rw [strcpy_strip_newline bytes hnul] at h
    refine ⟨h, rfl, ?_⟩
    rw [add_to_history_slot, ← strcpy_strip_newline bytes hnul, strcpy_strcpy]
  · intro hfirst hcount
    refine ⟨_, read_command_bangbang st tokens bytes htok hfirst hcount, rfl, ?_⟩
    rw [add_to_history_slot, strcpy_strcpy]
  · intro s num hfirst hs hnum hwin
    refine ⟨_, read_command_bang_valid st tokens bytes s num htok hfirst hs hnum hwin, rfl, ?_⟩
    rw [add_to_history_slot, strcpy_strcpy]

/-- A use of C11: the typed line `  ls   -l &` is recorded with its blanks and its
`&`, without the newline. -/
theorem C11_history_frame_witness :
    returns
      (read_command empty_history (List.replicate NUM_TOKENS none)
        (.data "  ls   -l &\n".toList))
      (strip_amp (tokens_of (strip_newline "  ls   -l &\n".toList)))
      (ends_with_amp (tokens_of (strip_newline "  ls   -l &\n".toList))) [] []
      (add_to_history empty_history (typed_line "  ls   -l &\n".toList))
    ∧ typed_line "  ls   -l &\n".toList = "  ls   -l &".toList :=
  ⟨((C11_history_frame empty_history (List.replicate NUM_TOKENS none)
      "  ls   -l &\n".toList (by simp)).2.2.2.2.1 "ls".toList (by decide) (by decide)
      (by decide)).1, by decide⟩

/-! ## Interrupted reads, ignored tokens, the lone ampersand -/

/-- C13, at the failing input: when `read` returns `-1` with `errno == EINTR`,
`read_command` neither terminates nor reads again; it goes on to the store
`buff[length] = '\0'` with `length == -1`, which is undefined behaviour, and the
line that follows the interrupt is not consumed by that call. Any other read failure
ends the process with status `-1`. -/
theorem C13_interrupted_read_not_retried :
    read_command empty_history (List.replicate NUM_TOKENS none) .eintr = .undefined
    ∧ main_loop [sample_parent] (initial (List.replicate NUM_TOKENS none))
        [.eintr, .data "ls\n".toList] = .undefined
    ∧ read_command empty_history (List.replicate NUM_TOKENS none)
        (.failed "Input/output error".toList)
      = .exited (-1)
          "Unable to read command from keyboard. Terminating.\n: Input/output error\n".toList := by
  decide

theorem observe_of_returns {o : Outcome} {args : List (List Char)} {bg : Bool}
    {out err : List Char} {st : HistoryStore} (h : returns o args bg out err st) :
    observe o = .returned args bg out err st := by
  obtain ⟨r, rfl, h1, h2, h3, h4, h5⟩ := returns_exists h
  simp only [observe, h1, h2, h3, h4, h5]

/-- C18: two lines whose first token is the same history reference, `!!` or the same
`!n`, read in the same history state give the same observable result: the same
returned tokens, background flag, standard output, standard error and history
store, whatever else the two lines hold. -/
theorem C18_reference_ignores_rest (st : HistoryStore) (tokens1 tokens2 : List (Option Nat))
    (bytes1 bytes2 s : List Char) (htok1 : NUM_TOKENS ≤ tokens1.length)
    (htok2 : NUM_TOKENS ≤ tokens2.length)
    (hfirst1 : (tokens_of (strip_newline bytes1)).head? = some ('!' :: s))
    (hfirst2 : (tokens_of (strip_newline bytes2)).head? = some ('!' :: s)) :
    observe (read_command st tokens1 (.data bytes1))
      = observe (read_command st tokens2 (.data bytes2)) := by
  by_cases hs : s = ['!']
  · subst hs
    by_cases hcount : st.history_count = 0
    · rw [observe_of_returns (read_command_bangbang_empty st tokens1 bytes1 htok1 hfirst1 hcount),
        observe_of_returns (read_command_bangbang_empty st tokens2 bytes2 htok2 hfirst2 hcount)]
    · rw [observe_of_returns (read_command_bangbang st tokens1 bytes1 htok1 hfirst1 hcount),
        observe_of_returns (read_command_bangbang st tokens2 bytes2 htok2 hfirst2 hcount)]
  · cases hnum : atoi s with
    | none =>
      rw [read_command_bang_undefined st tokens1 bytes1 s htok1 hfirst1 hs hnum,
        read_command_bang_undefined st tokens2 bytes2 s htok2 hfirst2 hs hnum]
    | some num =>
      by_cases hwin : num ≤ 0 ∨ num > (st.history_count : Int)
          ∨ num ≤ (st.history_count : Int) - (HISTORY_DEPTH : Int)
      · rw [observe_of_returns
            (read_command_bang_invalid st tokens1 bytes1 s num htok1 hfirst1 hs hnum hwin),
          observe_of_returns
            (read_command_bang_invalid st tokens2 bytes2 s num htok2 hfirst2 hs hnum hwin)]
      · rw [observe_of_returns
            (read_command_bang_valid st tokens1 bytes1 s num htok1 hfirst1 hs hnum hwin),
          observe_of_returns
            (read_command_bang_valid st tokens2 bytes2 s num htok2 hfirst2 hs hnum hwin)]

/-- A use of C18: after the line `ls`, the lines `!! &` and `!!` give the same result;
the `&` typed after `!!` does not set the background flag. -/
theorem C18_reference_ignores_rest_witness :
    observe (read_command (record_all ["ls".toList]) (List.replicate NUM_TOKENS none)
        (.data "!! &\n".toList))
      = observe (read_command (record_all ["ls".toList]) (List.replicate NUM_TOKENS none)
        (.data "!!\n".toList))
    ∧ observe (read_command (record_all ["ls".toList]) (List.replicate NUM_TOKENS none)
        (.data "!!\n".toList))
      = .returned ["ls".toList] false "ls\n".toList [] (record_all ["ls".toList, "ls".toList]) :=
  ⟨C18_reference_ignores_rest (record_all ["ls".toList]) (List.replicate NUM_TOKENS none)
    (List.replicate NUM_TOKENS none) "!! &\n".toList "!!\n".toList ['!'] (by simp) (by simp)
    (by decide) (by decide), by decide⟩

theorem getD_zero_of_argv_nil (buff : List Char) (tokens : List (Option Nat))
    (h : argv buff tokens = []) : tokens.getD 0 none = none := by
  cases tokens with
  | nil => rfl
  | cons t ts =>
    cases t with
    | none => rfl
    | some p => simp [argv] at h

/-- C19: for a line whose only token is `&`, `read_command` sets the background
flag, hands back the empty token sequence, writes nothing, and still appends the
line as typed (without its newline) to the history, so that `history_count` grows by
one; the loop of `main` then finds `tokens[0] == NULL` and ends the pass without
entering the dispatcher. -/
theorem C19_lone_ampersand (sys : Sys) (s : Process) (bytes cwd : List Char)
    (input : List ReadResult) (htok : NUM_TOKENS ≤ s.tokens.length)
    (honly : tokens_of (strip_newline bytes) = [['&']])
    (hcwd : sys.getcwd_prompt = some cwd) :
    returns (read_command s.st s.tokens (.data bytes)) [] true [] []
      (add_to_history s.st (strcpy (strip_newline bytes)))
    ∧ (add_to_history s.st (strcpy (strip_newline bytes))).history_count
        = s.st.history_count + 1
    ∧ (add_to_history s.st (strcpy (strip_newline bytes))).history.getD
        (s.st.history_count % HISTORY_DEPTH) [] = strcpy (strip_newline bytes)
    ∧ (NUL ∉ bytes → strcpy (strip_newline bytes) = typed_line bytes)
    ∧ ∃ s2, loop_body sys s (.data bytes :: input) = .next s2 input
        ∧ s2.log = s.log
        ∧ s2.st = add_to_history s.st (strcpy (strip_newline bytes)) := by
  have hret := read_command_typed s.st s.tokens bytes ['&'] htok (by rw [honly]; rfl)
    (by decide)
  have h1 : strip_amp (tokens_of (strip_newline bytes)) = [] := by rw [honly]; rfl
  have h2 : ends_with_amp (tokens_of (strip_newline bytes)) = true := by rw [honly]; rfl
  rw [h1, h2] at hret
  refine ⟨hret, rfl, ?_, strcpy_strip_newline bytes, ?_⟩
  · rw [add_to_history_slot, strcpy_strcpy]
  · obtain ⟨r, hr, hargs, -, hout, herr, hst⟩ := returns_exists hret
    refine ⟨absorb { s with stdout := s.stdout ++ cwd ++ ['>', ' '] } r, ?_, rfl, hst⟩
    simp only [loop_body, hcwd, hr, getD_zero_of_argv_nil _ _ hargs]

/-- A use of C19: the line ` & ` typed as the first line of a session. -/
theorem C19_lone_ampersand_witness :
    returns
      (read_command (initial (List.replicate NUM_TOKENS none)).st
        (initial (List.replicate NUM_TOKENS none)).tokens (.data " & \n".toList))
      [] true [] []
      (add_to_history (initial (List.replicate NUM_TOKENS none)).st
        (strcpy (strip_newline " & \n".toList)))
    ∧ strcpy (strip_newline " & \n".toList) = " & ".toList :=
  ⟨(C19_lone_ampersand sample_parent (initial (List.replicate NUM_TOKENS none))
    " & \n".toList "/home".toList [] (by simp [initial]) (by decide) rfl).1, by decide⟩

/-! ## Reachable history stores -/

theorem plain_command_strcpy (line : List Char) (h : plain_command line) :
    plain_command (strcpy line) := by
  obtain ⟨first, rest, h1, h2⟩ := h
  exact ⟨first, rest, by rw [tokens_of_strcpy, h1], h2⟩

theorem plain_add_to_history (st : HistoryStore) (line : List Char)
    (hinv : ∀ i, st.history_count - HISTORY_DEPTH ≤ i → i < st.history_count →
      plain_command (st.history.getD (i % HISTORY_DEPTH) []))
    (hline : plain_command line) (hcpy : strcpy line = line) :
    ∀ i, (add_to_history st line).history_count - HISTORY_DEPTH ≤ i →
      i < (add_to_history st line).history_count →
      plain_command ((add_to_history st line).history.getD (i % HISTORY_DEPTH) []) := by
  intro i hlo hhi
  rw [add_to_history_count] at hlo hhi
  by_cases hi : i = st.history_count
  · subst hi
    rw [add_to_history_slot, hcpy]
    exact hline
  · have hne : st.history_count % HISTORY_DEPTH ≠ i % HISTORY_DEPTH := by
      simp only [HISTORY_DEPTH] at hlo ⊢
      omega
    have hold := hinv i (by omega) (by omega)
    simpa only [add_to_history, List.getD_eq_getElem?_getD, List.getElem?_set_ne hne]
      using hold

theorem plain_window_index (hc : Nat) (num : Int)
    (hwin : ¬ (num ≤ 0 ∨ num > (hc : Int) ∨ num ≤ (hc : Int) - (HISTORY_DEPTH : Int))) :
    hc - HISTORY_DEPTH ≤ (num - 1).toNat ∧ (num - 1).toNat < hc := by
  simp only [HISTORY_DEPTH] at hwin ⊢
  omega

theorem plain_window_last (hc : Nat) (h : hc ≠ 0) :
    hc - HISTORY_DEPTH ≤ hc - 1 ∧ hc - 1 < hc := by
  simp only [HISTORY_DEPTH]
  omega

theorem plain_step (st : HistoryStore) (tokens : List (Option Nat)) (rd : ReadResult)
    (r : CommandResult) (htok : NUM_TOKENS ≤ tokens.length)
    (hinv : ∀ i, st.history_count - HISTORY_DEPTH ≤ i → i < st.history_count →
      plain_command (st.history.getD (i % HISTORY_DEPTH) []))
    (hr : read_command st tokens rd = .returned r) :
    ∀ i, r.st.history_count - HISTORY_DEPTH ≤ i → i < r.st.history_count →
      plain_command (r.st.history.getD (i % HISTORY_DEPTH) []) := by
  cases rd with
  | eintr => simp [read_command] at hr
  | failed e => simp [read_command] at hr
  | data bytes =>
    have unchanged : ∀ {err : List Char},
        returns (read_command st tokens (.data bytes)) [] false [] err st →
        ∀ i, r.st.history_count - HISTORY_DEPTH ≤ i → i < r.st.history_count →
          plain_command (r.st.history.getD (i % HISTORY_DEPTH) []) := by
      intro err hx
      rw [hr, returns_iff] at hx
      rw [hx.2.2.2.2]
      exact hinv
    have appended : ∀ {args : List (List Char)} {bg : Bool} {out line : List Char},
        returns (read_command st tokens (.data bytes)) args bg out [] (add_to_history st line) →
        plain_command line → strcpy line = line →
        ∀ i, r.st.history_count - HISTORY_DEPTH ≤ i → i < r.st.history_count →
          plain_command (r.st.history.getD (i % HISTORY_DEPTH) []) := by
      intro args bg out line hx hline hcpy
      rw [hr, returns_iff] at hx
      rw [hx.2.2.2.2]
      exact plain_add_to_history st line hinv hline hcpy
    by_cases h0 : strlen bytes = 0
    · simp [read_command, h0] at hr
    by_cases hblank : tokens_of (strip_newline bytes) = []
    · exact unchanged (read_command_blank st tokens bytes htok h0 hblank)
    obtain ⟨first, rest, hts⟩ := List.exists_cons_of_ne_nil hblank
    have hfirst : (tokens_of (strip_newline bytes)).head? = some first := by simp [hts]
    by_cases hbang : first.head? = some '!'
    · obtain ⟨s, rfl⟩ : ∃ s, first = '!' :: s := by
        cases first with
        | nil => simp at hbang
        | cons c cs =>
          simp only [List.head?_cons, Option.some.injEq] at hbang
          exact ⟨cs, by rw [hbang]⟩
      by_cases hs : s = ['!']
      · subst hs
        by_cases hcount : st.history_count = 0
        · exact unchanged (read_command_bangbang_empty st tokens bytes htok hfirst hcount)
        · exact appended (read_command_bangbang st tokens bytes htok hfirst hcount)
            (plain_command_strcpy _ (hinv (st.history_count - 1)
              (plain_window_last _ hcount).1 (plain_window_last _ hcount).2))
            (strcpy_strcpy _)
      · cases hnum : atoi s with
        | none =>
          rw [read_command_bang_undefined st tokens bytes s htok hfirst hs hnum] at hr
          cases hr
        | some num =>
          by_cases hwin : num ≤ 0 ∨ num > (st.history_count : Int)
              ∨ num ≤ (st.history_count : Int) - (HISTORY_DEPTH : Int)
          · exact unchanged
              (read_command_bang_invalid st tokens bytes s num htok hfirst hs hnum hwin)
          · have hidx := plain_window_index st.history_count num hwin
            exact appended
              (read_command_bang_valid st tokens bytes s num htok hfirst hs hnum hwin)
              (plain_command_strcpy _ (hinv _ hidx.1 hidx.2)) (strcpy_strcpy _)
    · exact appended (read_command_typed st tokens bytes first htok hfirst hbang)
        ⟨first, rest, by rw [tokens_of_strcpy, hts], hbang⟩ (strcpy_strcpy _)

theorem reachable_of_returns (st st2 : HistoryStore) (tokens : List (Option Nat))
    (rd : ReadResult) (args : List (List Char)) (bg : Bool) (out err : List Char)
    (hreach : Reachable st) (htok : NUM_TOKENS ≤ tokens.length)
    (h : returns (read_command st tokens rd) args bg out err st2) : Reachable st2 := by
  obtain ⟨r, hr, -, -, -, -, hst⟩ := returns_exists h
  rw [← hst]
  exact Reachable.step st tokens rd r hreach htok hr

/-- C17: in every history store reachable from the empty store through calls of
`read_command`, every entry of the retrievable window has at least one token and a
first token that does not begin with `!`. Hence an accepted `!!` or `!n` resolves to
such a line: never to a blank line and never to another history reference. -/
theorem C17_recorded_lines_plain (st : HistoryStore) (hreach : Reachable st) :
    (∀ i, st.history_count - HISTORY_DEPTH ≤ i → i < st.history_count →
      plain_command (st.history.getD (i % HISTORY_DEPTH) []))
    ∧ (∀ tokens bytes, NUM_TOKENS ≤ tokens.length →
        (tokens_of (strip_newline bytes)).head? = some ['!', '!'] → st.history_count ≠ 0 →
        ∃ line, plain_command line ∧
          returns (read_command st tokens (.data bytes)) (strip_amp (tokens_of line))
            (ends_with_amp (tokens_of line)) (line ++ ['\n']) [] (add_to_history st line))
    ∧ (∀ tokens bytes s num, NUM_TOKENS ≤ tokens.length →
        (tokens_of (strip_newline bytes)).head? = some ('!' :: s) → s ≠ ['!'] →
        atoi s = some num →
        ¬ (num ≤ 0 ∨ num > (st.history_count : Int)
          ∨ num ≤ (st.history_count : Int) - (HISTORY_DEPTH : Int)) →
        ∃ line, plain_command line ∧
          returns (read_command st tokens (.data bytes)) (strip_amp (tokens_of line))
            (ends_with_amp (tokens_of line)) (line ++ ['\n']) [] (add_to_history st line)) := by
  have hinv : ∀ i, st.history_count - HISTORY_DEPTH ≤ i → i < st.history_count →
      plain_command (st.history.getD (i % HISTORY_DEPTH) []) := by
    induction hreach with
    | start => intro i _ hi; exact absurd hi (Nat.not_lt_zero _)
    | step st0 tokens rd r _ htok hr ih => exact plain_step st0 tokens rd r htok ih hr
  refine ⟨hinv, ?_, ?_⟩
  · intro tokens bytes htok hfirst hcount
    exact ⟨_, plain_command_strcpy _ (hinv (st.history_count - 1)
        (plain_window_last _ hcount).1 (plain_window_last _ hcount).2),
      read_command_bangbang st tokens bytes htok hfirst hcount⟩
  · intro tokens bytes s num htok hfirst hs hnum hwin
    have hidx := plain_window_index st.history_count num hwin
    exact ⟨_, plain_command_strcpy _ (hinv _ hidx.1 hidx.2),
      read_command_bang_valid st tokens bytes s num htok hfirst hs hnum hwin⟩

/-- A use of C17: the store reached by typing `echo hi` as the first line; its entry
of logical index 0 is a plain command. -/
theorem C17_recorded_lines_plain_witness :
    plain_command ((record_all ["echo hi".toList]).history.getD (0 % HISTORY_DEPTH) []) :=
  (C17_recorded_lines_plain (record_all ["echo hi".toList])
    (reachable_of_returns empty_history (record_all ["echo hi".toList])
      (List.replicate NUM_TOKENS none) (.data "echo hi\n".toList)
      ["echo".toList, "hi".toList] false [] [] Reachable.start (by simp) (by decide))).1 0
    (by decide) (by decide)

/-! ## The dispatcher -/

theorem token_at_zero_of_argv (buff : List Char) (tokens : List (Option Nat))
    (command : List Char) (rest : List (List Char))
    (h : argv buff tokens = command :: rest) : token_at buff tokens 0 = command := by
  cases tokens with
  | nil => simp [argv] at h
  | cons t ts =>
    cases t with
    | none => simp [argv] at h
    | some p =>
      simp only [argv, List.cons.injEq] at h
      simp [token_at, h.1]

theorem children_append (log1 log2 : List Event) :
    children (log1 ++ log2) = children log1 ++ children log2 := by
  induction log1 with
  | nil => rfl
  | cons e log ih => cases e <;> simp [children, ih]

/-- What the child does in which `execvp` fails: it writes the message and goes on to
the sweep and to the next pass of the loop, like the parent shell. -/
theorem failed_exec_continues (sys : Sys) (s : Process) (r : CommandResult)
    (input : List ReadResult) (command strerror : List Char) (rest : List (List Char))
    (hargv : argv r.buff r.tokens = command :: rest)
    (h1 : command ≠ "exit".toList) (h2 : command ≠ "pwd".toList)
    (h3 : command ≠ "cd".toList) (h4 : command ≠ "history".toList)
    (hfork : sys.fork = .child) (hexec : sys.execvp (command :: rest) = some strerror) :
    dispatch sys s r input
      = .next { s with log := s.log ++ [.dispatch (command :: rest), .sweep]
                       stderr := s.stderr ++ perror "execvp error".toList strerror } input := by
  simp only [dispatch, token_at_zero_of_argv _ _ _ _ hargv, h1, h2, h3, h4, if_false, hfork,
    hargv, hexec, sweep, List.append_assoc, List.singleton_append]

/-- C12, at the failing input: in the child that `fork` created for the line
`nosuchcmd`, `execvp` fails; the child writes the message to standard error and
then, instead of terminating, ends the pass like the parent shell and is back at the
top of the loop, from where it reads and dispatches the next line `pwd` itself. -/
theorem C12_failed_exec_child_keeps_running :
    (loop_body sample_child (initial (List.replicate NUM_TOKENS none))
        [.data "nosuchcmd\n".toList, .data "pwd\n".toList]).without_tokens
      = .next
          { st := record_all ["nosuchcmd".toList]
            tokens := []
            stdout := "/home> ".toList
            stderr := "execvp error: No such file or directory\n".toList
            log := [.dispatch ["nosuchcmd".toList], .sweep] }
          [.data "pwd\n".toList]
    ∧ (main_loop [sample_child, sample_child] (initial (List.replicate NUM_TOKENS none))
        [.data "nosuchcmd\n".toList, .data "pwd\n".toList]).process.map
          (fun s => (s.stdout, dispatched s.log))
      = some ("/home> /home> Working Directory is: /home\n".toList,
          [["nosuchcmd".toList], ["pwd".toList]]) := by
  decide

/-- C14, at the failing input: for `sleep 5 &` immediately followed by `pwd &`, the
pass that launches `sleep 5` in the background reads the line `pwd &` in its extra
call of `read_command`, which records it, and then ends; the next pass reads anew.
The dispatcher was entered for `sleep 5` only, one child was created, and `pwd` was
never run, although `read_command` returned the non-empty token sequence `pwd` for
the second line. -/
theorem C14_prefetched_line_not_dispatched :
    (main_loop [sample_parent, sample_parent] (initial (List.replicate NUM_TOKENS none))
        [.data "sleep 5 &\n".toList, .data "pwd &\n".toList]).without_tokens
      = .blocked
          { st := record_all ["sleep 5 &".toList, "pwd &".toList]
            tokens := []
            stdout := "/home> /home> ".toList
            stderr := []
            log := [.dispatch ["sleep".toList, "5".toList],
              .fork 100 ["sleep".toList, "5".toList], .sweep] }
    ∧ returns
        (read_command (record_all ["sleep 5 &".toList]) (List.replicate NUM_TOKENS none)
          (.data "pwd &\n".toList))
        ["pwd".toList] true [] [] (record_all ["sleep 5 &".toList, "pwd &".toList]) := by
  decide

theorem children_dispatch (log : List Event) (args : List (List Char)) :
    children (log ++ [.dispatch args]) = children log := by
  rw [children_append]; simp [children]

theorem dispatch_exit (sys : Sys) (s : Process) (r : CommandResult) (input : List ReadResult)
    (hc : token_at r.buff r.tokens 0 = "exit".toList) :
    dispatch sys s r input
      = .exited 0 { s with log := s.log ++ [.dispatch (argv r.buff r.tokens)] } := by
  simp only [dispatch, hc, if_true]

theorem dispatch_pwd (sys : Sys) (s : Process) (r : CommandResult) (input : List ReadResult)
    (hc : token_at r.buff r.tokens 0 = "pwd".toList) :
    dispatch sys s r input
      = match sys.getcwd_pwd with
        | .ok curr_dir =>
          .next { s with log := s.log ++ [.dispatch (argv r.buff r.tokens)]
                         stdout := s.stdout ++ "Working Directory is: ".toList ++ curr_dir
                           ++ ['\n'] } input
        | .error strerror =>
          .next { s with log := s.log ++ [.dispatch (argv r.buff r.tokens)]
                         stderr := s.stderr ++ perror "getcwd error".toList strerror }
            input := by
  simp only [dispatch, hc]
  rw [if_neg (by decide), if_pos True.intro]

theorem dispatch_cd (sys : Sys) (s : Process) (r : CommandResult) (input : List ReadResult)
    (hc : token_at r.buff r.tokens 0 = "cd".toList) :
    dispatch sys s r input
      = match sys.chdir ((r.tokens.getD 1 none).map (tokstr r.buff)) with
        | some strerror =>
          .next { s with log := s.log ++ [.dispatch (argv r.buff r.tokens)]
                         stderr := s.stderr ++ perror "chdir error".toList strerror } input
        | none =>
          .next { s with log := s.log ++ [.dispatch (argv r.buff r.tokens)]
                    ++ [.chdir ((r.tokens.getD 1 none).map (tokstr r.buff))] } input := by
  simp only [dispatch, hc]
  rw [if_neg (by decide), if_neg (by decide), if_pos True.intro]

theorem dispatch_history (sys : Sys) (s : Process) (r : CommandResult)
    (input : List ReadResult) (hc : token_at r.buff r.tokens 0 = "history".toList) :
    dispatch sys s r input
      = .next { s with log := s.log ++ [.dispatch (argv r.buff r.tokens)]
                       stdout := s.stdout ++ print_history s.st } input := by
  simp only [dispatch, hc]
  rw [if_neg (by decide), if_neg (by decide), if_neg (by decide), if_pos True.intro]

theorem dispatch_external (sys : Sys) (s : Process) (r : CommandResult)
    (input : List ReadResult)
    (h1 : token_at r.buff r.tokens 0 ≠ "exit".toList)
    (h2 : token_at r.buff r.tokens 0 ≠ "pwd".toList)
    (h3 : token_at r.buff r.tokens 0 ≠ "cd".toList)
    (h4 : token_at r.buff r.tokens 0 ≠ "history".toList) :
    dispatch sys s r input
      = match sys.fork with
        | .failed strerror =>
          .exited (-1)
            { s with log := s.log ++ [.dispatch (argv r.buff r.tokens)]
                     stderr := s.stderr ++ perror "fork failed".toList strerror }
        | .child =>
          match sys.execvp (argv r.buff r.tokens) with
          | none =>
            .replaced (argv r.buff r.tokens)
              { s with log := s.log ++ [.dispatch (argv r.buff r.tokens)] }
          | some strerror =>
            sweep { s with log := s.log ++ [.dispatch (argv r.buff r.tokens)]
                           stderr := s.stderr ++ perror "execvp error".toList strerror } input
        | .parent child_pid =>
          if !r.in_background then
            sweep { s with log := s.log ++ [.dispatch (argv r.buff r.tokens)]
                      ++ [.fork child_pid (argv r.buff r.tokens)] ++ [.waitpid child_pid] }
              input
          else
            match input with
            | [] =>
              .blocked { s with log := s.log ++ [.dispatch (argv r.buff r.tokens)]
                  ++ [.fork child_pid (argv r.buff r.tokens)] }
            | rd :: input =>
              match read_command s.st s.tokens rd with
              | .undefined => .undefined
              | .exited status err =>
                .exited status
                  { s with log := s.log ++ [.dispatch (argv r.buff r.tokens)]
                      ++ [.fork child_pid (argv r.buff r.tokens)]
                           stderr := s.stderr ++ err }
              | .returned r2 =>
                sweep (absorb { s with log := s.log ++ [.dispatch (argv r.buff r.tokens)]
                    ++ [.fork child_pid (argv r.buff r.tokens)] } r2) input := by
  simp only [dispatch, h1, h2, h3, h4, if_false]

/-- C15: the dispatcher classifies on the first token of a non-empty token sequence.
For `exit` the process terminates with status 0 and no child is created. For `pwd`,
`cd` and `history` the pass ends in-process, with no child created, the history
store untouched and the input left for the next pass. For every other first token
`fork` is called: in the parent exactly one child is created, with the returned
token sequence as its argument vector (and a foreground command is then waited
for); in the child `execvp` is called with that token sequence; and when `fork`
fails the process terminates with status `-1`. -/
theorem C15_dispatch_classification (sys : Sys) (s : Process) (r : CommandResult)
    (input : List ReadResult) (command : List Char) (rest : List (List Char))
    (hargv : argv r.buff r.tokens = command :: rest) :
    (command = "exit".toList →
      dispatch sys s r input
        = .exited 0 { s with log := s.log ++ [.dispatch (command :: rest)] })
    ∧ (command = "pwd".toList ∨ command = "cd".toList ∨ command = "history".toList →
      ∃ s2, dispatch sys s r input = .next s2 input
        ∧ children s2.log = children s.log ∧ s2.st = s.st)
    ∧ (command ≠ "exit".toList → command ≠ "pwd".toList → command ≠ "cd".toList →
        command ≠ "history".toList →
      (∀ child_pid, sys.fork = .parent child_pid →
        (dispatch sys s r input = .undefined
          ∨ ∃ s2, (dispatch sys s r input).process = some s2
              ∧ children s2.log = children s.log ++ [command :: rest])
        ∧ (r.in_background = false →
            dispatch sys s r input
              = .next { s with log := s.log ++ [.dispatch (command :: rest),
                  .fork child_pid (command :: rest), .waitpid child_pid, .sweep] } input))
      ∧ (sys.fork = .child → sys.execvp (command :: rest) = none →
          dispatch sys s r input
            = .replaced (command :: rest)
                { s with log := s.log ++ [.dispatch (command :: rest)] })
      ∧ (∀ strerror, sys.fork = .failed strerror →
          dispatch sys s r input
            = .exited (-1)
                { s with log := s.log ++ [.dispatch (command :: rest)]
                         stderr := s.stderr ++ perror "fork failed".toList strerror })) := by
  have hcmd := token_at_zero_of_argv _ _ _ _ hargv
  refine ⟨?_, ?_, ?_⟩
  · intro h
    rw [dispatch_exit sys s r input (by rw [hcmd, h]), hargv]
  · rintro (h | h | h)
    · rw [dispatch_pwd sys s r input (by rw [hcmd, h])]
      cases sys.getcwd_pwd with
      | ok dir => exact ⟨_, rfl, children_dispatch _ _, rfl⟩
      | error e => exact ⟨_, rfl, children_dispatch _ _, rfl⟩
    · rw [dispatch_cd sys s r input (by rw [hcmd, h])]
      cases sys.chdir ((r.tokens.getD 1 none).map (tokstr r.buff)) with
      | none =>
        refine ⟨_, rfl, ?_, rfl⟩
        simp only [children_append]
        simp [children]
      | some e => exact ⟨_, rfl, children_dispatch _ _, rfl⟩
    · rw [dispatch_history sys s r input (by rw [hcmd, h])]
      exact ⟨_, rfl, children_dispatch _ _, rfl⟩
  · intro h1 h2 h3 h4
    have hext := dispatch_external sys s r input (by rw [hcmd]; exact h1)
      (by rw [hcmd]; exact h2) (by rw [hcmd]; exact h3) (by rw [hcmd]; exact h4)
    rw [hargv] at hext
    refine ⟨?_, ?_, ?_⟩
    · intro child_pid hfork
      rw [hfork] at hext
      have hch : children (s.log ++ [Event.dispatch (command :: rest)]
          ++ [Event.fork child_pid (command :: rest)])
          = children s.log ++ [command :: rest] := by
        simp only [children_append]
        simp [children]
      refine ⟨?_, ?_⟩
      · cases hbg : r.in_background with
        | false =>
          right
          rw [hext]
          simp only [hbg, Bool.not_false, if_true, sweep, Pass.process]
          refine ⟨_, rfl, ?_⟩
          simp only [children_append]
          simp [children]
        | true =>
          simp only [hbg, Bool.not_true, Bool.false_eq_true, if_false] at hext
          cases input with
          | nil =>
            right
            rw [hext]
            exact ⟨_, rfl, hch⟩
          | cons rd input =>
            simp only at hext
            cases hrd : read_command s.st s.tokens rd with
            | undefined => left; rw [hext, hrd]
            | exited status e =>
              right
              rw [hext, hrd]
              exact ⟨_, rfl, hch⟩
            | returned r2 =>
              right
              rw [hext, hrd]
              refine ⟨_, rfl, ?_⟩
              simp only [absorb, children_append]
              simp [children]
      · intro hbg
        rw [hext]
        simp only [hbg, Bool.not_false, if_true, sweep, List.append_assoc,
          List.singleton_append, List.cons_append, List.nil_append]
    · intro hfork hexec
      rw [hext, hfork]
      simp only [hexec]
    · intro strerror hfork
      rw [hext, hfork]

/-- A use of C15: the typed line `ls -l` in the parent shell; one child with the
argument vector `ls`, `-l` is created and waited for. -/
theorem C15_dispatch_classification_witness :
    argv sample_result.buff sample_result.tokens = ["ls".toList, "-l".toList]
    ∧ dispatch sample_parent (initial []) sample_result []
      = .next { initial [] with log := (initial []).log ++ [.dispatch ["ls".toList, "-l".toList],
          .fork 100 ["ls".toList, "-l".toList], .waitpid 100, .sweep] } [] :=
  ⟨by decide,
    (((C15_dispatch_classification sample_parent (initial []) sample_result [] "ls".toList
      ["-l".toList] (by decide)).2.2 (by decide) (by decide) (by decide) (by decide)).1 100
      rfl).2 rfl⟩
end Shell
